import Mathlib

/-!
# Peer-mesh signaling core of the room page (`web/src/App.jsx`, `RoomPage`)

A shallow embedding of the signaling handler, the pending-offer flush and the
mesh reconciliation effect of `RoomPage`, together with the registry helpers
they call, the name lookup `displayNameFor` and the inbound-media observer of
a connection.

Conventions of the embedding.

* A JavaScript string is a Lean `String`; `a < b` on strings is the comparison
  of the UTF-16 code units (`jsLt`).
* An optional string field of a parsed frame is an `Option String`
  (`none` is `undefined`); it is truthy when present and non-empty.
* A JavaScript `Map` is the list of its entries in insertion order
  (`mapSet`, `mapGet`, `mapHas`, `mapDelete`).
* The object `displayNames`, used as a dictionary from id to name, is the
  list of its own entries; a read (`objGet`) that finds no own entry finds the
  member of that name inherited from `Object.prototype` when there is one, and
  an assignment to the key `__proto__` (`objAssign`) goes to the inherited
  setter and stores nothing.
* React state setters are applied in the order in which they are called; the
  component variables a callback reads (`clientId`, `localName`,
  `localStream`) are passed to it as a `Scope`.
* The platform calls of `RTCPeerConnection` (`createOffer`, `createAnswer`,
  `setLocalDescription`, `setRemoteDescription`, `addIceCandidate`) are an
  explicit parameter (`Platform`): each call either resolves or rejects.
* An asynchronous chain (`sendOffer`, `handleOffer`) is split into the part
  that runs at the call and the continuation; an effect runs the continuations
  of the chains it started after its loops, in the order in which it started
  them.
* What the code does to the outside (socket sends, connections created and
  closed, remote descriptions handed to a connection) is appended to the
  `effects` trace of the state.
-/

namespace Chatter

/-! ## JavaScript strings and their ordering -/

/-- UTF-16 code units of one character. -/
def utf16 (c : Char) : List Nat :=
  if c.toNat < 0x10000 then [c.toNat]
  else [0xD800 + (c.toNat - 0x10000) / 0x400, 0xDC00 + (c.toNat - 0x10000) % 0x400]

/-- UTF-16 code units of a list of characters. -/
def unitsOf : List Char → List Nat
  | [] => []
  | c :: cs => utf16 c ++ unitsOf cs

/-- UTF-16 code units of a string, the representation JavaScript compares. -/
def codeUnits (s : String) : List Nat := unitsOf s.data

/-- Lexicographic comparison of two code-unit sequences. -/
def ltUnits : List Nat → List Nat → Bool
  | [], [] => false
  | [], _ :: _ => true
  | _ :: _, [] => false
  | a :: as, b :: bs => if a < b then true else if b < a then false else ltUnits as bs

/-- JavaScript `a < b` on two strings. -/
def jsLt (a b : String) : Bool := ltUnits (codeUnits a) (codeUnits b)

/-- Truthiness of an optional string: present and non-empty. -/
def truthy : Option String → Bool
  | some s => s != ""
  | none => false

/-- Property key an optional string is converted to (`undefined` becomes the
key `"undefined"`). -/
def keyOf : Option String → String
  | some s => s
  | none => "undefined"

/-! ## JavaScript `Map` as an insertion-ordered entry list -/

/-- Lookup, `Map.prototype.get`. -/
def mapGet {V : Type} : List (String × V) → String → Option V
  | [], _ => none
  | (k, v) :: rest, key => if k = key then some v else mapGet rest key

/-- Membership, `Map.prototype.has`. -/
def mapHas {V : Type} (m : List (String × V)) (key : String) : Bool :=
  (mapGet m key).isSome

/-- Update, `Map.prototype.set`: an existing key keeps its position, a new key
goes to the end. -/
def mapSet {V : Type} : List (String × V) → String → V → List (String × V)
  | [], key, v => [(key, v)]
  | (k, w) :: rest, key, v =>
    if k = key then (k, v) :: rest else (k, w) :: mapSet rest key v

/-- Removal, `Map.prototype.delete`. -/
def mapDelete {V : Type} (m : List (String × V)) (key : String) : List (String × V) :=
  m.filter (fun e => e.1 != key)

/-! ## Plain objects used as dictionaries -/

/-- What a property read on a dictionary of strings returns. -/
inductive JsValue where
  | undefined
  | str (s : String)
  | inherited (key : String)
deriving DecidableEq, Repr

/-- The names of the members every plain object inherits from
`Object.prototype`; each of them is a function, or for `__proto__` the
prototype object, and so truthy. -/
def objectPrototypeKeys : List String :=
  ["constructor", "hasOwnProperty", "isPrototypeOf", "propertyIsEnumerable",
    "toLocaleString", "toString", "valueOf", "__proto__", "__defineGetter__",
    "__defineSetter__", "__lookupGetter__", "__lookupSetter__"]

/-- Property read `obj[key]` on a plain object with the given own entries. -/
def objGet (obj : List (String × String)) (key : String) : JsValue :=
  match mapGet obj key with
  | some v => JsValue.str v
  | none => if key ∈ objectPrototypeKeys then JsValue.inherited key else JsValue.undefined

/-- Assignment `obj[key] = v` of a string to a plain object: without an own
entry `__proto__`, the key `__proto__` reaches the inherited setter, which
ignores a string. -/
def objAssign (obj : List (String × String)) (key v : String) : List (String × String) :=
  if key = "__proto__" ∧ mapHas obj key = false then obj else mapSet obj key v

/-! ## Data model -/

/-- Session description (the `sdp` field of an offer or an answer): an object. -/
structure Sdp where
  type : String
  sdp : String
deriving DecidableEq, Repr

/-- ICE candidate object. -/
structure Candidate where
  candidate : String
deriving DecidableEq, Repr

/-- Media track of a stream. -/
structure Track where
  id : String
  kind : String
  enabled : Bool
deriving DecidableEq, Repr

/-- Media stream. -/
structure Stream where
  id : String
  tracks : List Track
deriving DecidableEq, Repr

/-- Sender of a connection; its track may be null. -/
structure Sender where
  track : Option Track
deriving DecidableEq, Repr

/-- The state of one `RTCPeerConnection` that the code observes. -/
structure Peer where
  senders : List Sender
  localDescription : Option Sdp
  remoteDescription : Option Sdp
  candidates : List Candidate
deriving DecidableEq, Repr

/-- Entry of the `participants` state. -/
structure Participant where
  id : Option String
  lastSeen : Nat
deriving DecidableEq, Repr

/-- Entry of the `remoteStreams` state. -/
structure RemoteStream where
  id : String
  stream : Stream
deriving DecidableEq, Repr

/-- Value of the `status` state. -/
inductive Status where
  | disconnected
  | connecting
  | connected
  | error
deriving DecidableEq, Repr

/-- Entry of the `participants` array of a snapshot frame. -/
structure Entry where
  id : Option String
  displayName : Option String
deriving DecidableEq, Repr

/-- The fields of a parsed frame that the handler reads; `rest` stands for
whatever else the frame carries. -/
structure Payload where
  type : Option String
  clientId : Option String
  displayName : Option String
  participants : Option (List Entry)
  from_ : Option String
  to_ : Option String
  action : Option String
  sdp : Option Sdp
  candidate : Option Candidate
  rest : String
deriving DecidableEq, Repr

/-- An incoming frame: `JSON.parse(event.data)` either yields a payload or
throws. -/
inductive Frame where
  | json (payload : Payload)
  | unparseable (data : String)
deriving DecidableEq, Repr

/-- Entry of the `messages` state. -/
inductive Msg where
  | payload (p : Payload)
  | raw (text : String)
deriving DecidableEq, Repr

/-- Object handed to `sendSignal`. -/
inductive Signal where
  | profile (displayName : String)
  | offer (from_ to_ : String) (sdp : Sdp)
  | answer (from_ to_ : String) (sdp : Sdp)
  | ice (from_ to_ : String) (candidate : Candidate)
deriving DecidableEq, Repr

/-- Externally visible action. -/
inductive Effect where
  | send (sig : Signal)
  | newPeer (remoteId : String)
  | close (remoteId : String)
  | setRemoteDescription (remoteId : String) (sdp : Sdp)
  | addIceCandidate (remoteId : String) (candidate : Candidate)
deriving DecidableEq, Repr

/-- State of `RoomPage`: the React state values, the two `Map` refs, whether
the socket of `socketRef` exists and is open, and the trace of effects. -/
structure Room where
  status : Status
  messages : List Msg
  participants : List Participant
  displayNames : List (String × String)
  localStream : Option Stream
  remoteStreams : List RemoteStream
  peers : List (String × Peer)
  pendingOffers : List (String × Sdp)
  clientId : String
  localName : String
  socketOpen : Bool
  effects : List Effect
deriving DecidableEq, Repr

/-- The component variables a callback closes over. -/
structure Scope where
  clientId : String
  localName : String
  localStream : Option Stream
deriving DecidableEq, Repr

/-- The scope of a callback created in the current render. -/
def Room.scope (st : Room) : Scope :=
  { clientId := st.clientId, localName := st.localName, localStream := st.localStream }

/-- Outcome of the asynchronous calls on the connection to `remoteId`. -/
structure Platform where
  createOffer : String → Peer → Option Sdp
  createAnswer : String → Peer → Option Sdp
  setLocalDescription : String → Peer → Sdp → Bool
  setRemoteDescription : String → Peer → Sdp → Bool
  addIceCandidate : String → Peer → Candidate → Bool

/-- The state of a room page that has just been mounted. -/
def Room.init : Room :=
  { status := Status.disconnected, messages := [], participants := [], displayNames := [],
    localStream := none, remoteStreams := [], peers := [], pendingOffers := [],
    clientId := "", localName := "", socketOpen := false, effects := [] }

/-! ## Registry helpers -/

/-- The updater of `upsertParticipant(id)`. -/
def upsertParticipant (now : Nat) (prev : List Participant) (id : Option String) :
    List Participant :=
  if prev.any (fun p => p.id = id) then
    prev.map (fun p => if p.id = id then { p with lastSeen := now } else p)
  else prev ++ [{ id := id, lastSeen := now }]

/-- The updater of `removeParticipant(id)`. -/
def removeParticipant (prev : List Participant) (id : Option String) : List Participant :=
  prev.filter (fun p => p.id ≠ id)

/-- Source function `setDisplayNameFor(id, name)`. -/
def setDisplayNameFor (prev : List (String × String)) (id name : Option String) :
    List (String × String) :=
  match id, name with
  | some i, some n => if i = "" ∨ n = "" then prev else mapSet prev i n
  | _, _ => prev

/-- Source function `displayNameFor(id)`, evaluated in a render of the state:
`displayNames[id] || "Anonymous"` gives the default for `undefined` and for
an empty name, and an inherited member as it is. -/
def displayNameFor (st : Room) (id : Option String) : JsValue :=
  if id = some st.clientId ∧ st.localName ≠ "" then JsValue.str st.localName
  else
    match objGet st.displayNames (keyOf id) with
    | JsValue.undefined => JsValue.str "Anonymous"
    | JsValue.str name => if name = "" then JsValue.str "Anonymous" else JsValue.str name
    | JsValue.inherited key => JsValue.inherited key

/-- Source function `sendSignal(payload)`: dropped unless the socket is open. -/
def sendSignal (st : Room) (sig : Signal) : Room :=
  if st.socketOpen then { st with effects := st.effects ++ [Effect.send sig] } else st

/-- The updater of `removeRemoteStream(id)`. -/
def removeRemoteStream (prev : List RemoteStream) (id : String) : List RemoteStream :=
  prev.filter (fun item => item.id ≠ id)

/-- The closure `sendProfile` of the socket effect. -/
def sendProfile (sc : Scope) (st : Room) : Room :=
  if sc.localName = "" then st else sendSignal st (Signal.profile sc.localName)

/-! ## Peer connections -/

/-- Source function `attachLocalTracks(pc)`. -/
def attachLocalTracks (sc : Scope) (pc : Peer) : Peer :=
  match sc.localStream with
  | none => pc
  | some localStream =>
    let existing := pc.senders.map (fun sender => sender.track.map (fun t => t.id))
    localStream.tracks.foldl
      (fun pc track =>
        if existing.contains (some track.id) then pc
        else { pc with senders := pc.senders ++ [{ track := some track }] })
      pc

/-- A connection as `new RTCPeerConnection` returns it. -/
def Peer.fresh : Peer :=
  { senders := [], localDescription := none, remoteDescription := none, candidates := [] }

/-- Source function `createPeer(remoteId)`; the connection it returns is the
entry of `remoteId` in the resulting `peers`. The three observers it installs
(`onicecandidate`, `ontrack`, `onconnectionstatechange`) run on later events
of the connection and are not part of the call. -/
def createPeer (sc : Scope) (st : Room) (remoteId : String) : Room :=
  if mapHas st.peers remoteId then st
  else
    { st with
      peers := mapSet st.peers remoteId (attachLocalTracks sc Peer.fresh)
      effects := st.effects ++ [Effect.newPeer remoteId] }

/-- The updater that the observer `pc.ontrack` of the connection to `remoteId`
passes to `setRemoteStreams`. -/
def ontrackUpdate (prev : List RemoteStream) (remoteId : String) (stream : Stream) :
    List RemoteStream :=
  if prev.any (fun item => item.id = remoteId) then
    prev.map (fun item => if item.id = remoteId then { id := remoteId, stream := stream } else item)
  else prev ++ [{ id := remoteId, stream := stream }]

/-- The observer `pc.ontrack` of the connection to `remoteId`, on an event
with the given `streams`; without a first stream it returns at once. -/
def ontrack (st : Room) (remoteId : String) (streams : List Stream) : Room :=
  match streams with
  | [] => st
  | stream :: _ => { st with remoteStreams := ontrackUpdate st.remoteStreams remoteId stream }

/-- Source function `shouldInitiate(remoteId)`. -/
def shouldInitiate (clientId remoteId : String) : Bool := jsLt clientId remoteId

/-- Source function `sendOffer(remoteId)` after its `createPeer` call: offer
created, local description set, offer sent; a rejected step ends the chain
(the caller swallows the rejection). -/
def sendOfferFinish (P : Platform) (sc : Scope) (st : Room) (remoteId : String) : Room :=
  match mapGet st.peers remoteId with
  | none => st
  | some pc =>
    match P.createOffer remoteId pc with
    | none => st
    | some offer =>
      if P.setLocalDescription remoteId pc offer then
        sendSignal
          { st with peers := mapSet st.peers remoteId { pc with localDescription := some offer } }
          (Signal.offer sc.clientId remoteId offer)
      else st

/-- Source function `handleOffer(fromId, sdp)`, synchronous part: the
connection is ensured and `setRemoteDescription` is called on it. -/
def handleOfferStart (sc : Scope) (st : Room) (fromId : String) (sdp : Sdp) : Room :=
  let st1 := createPeer sc st fromId
  { st1 with effects := st1.effects ++ [Effect.setRemoteDescription fromId sdp] }

/-- Source function `handleOffer(fromId, sdp)`, promise chain: remote
description applied, answer created, local description set, answer sent; a
rejected step ends the chain. -/
def handleOfferFinish (P : Platform) (sc : Scope) (st : Room) (fromId : String) (sdp : Sdp) :
    Room :=
  match mapGet st.peers fromId with
  | none => st
  | some pc =>
    if P.setRemoteDescription fromId pc sdp then
      let pc1 := { pc with remoteDescription := some sdp }
      let st1 := { st with peers := mapSet st.peers fromId pc1 }
      match P.createAnswer fromId pc1 with
      | none => st1
      | some answer =>
        if P.setLocalDescription fromId pc1 answer then
          sendSignal
            { st1 with peers := mapSet st1.peers fromId { pc1 with localDescription := some answer } }
            (Signal.answer sc.clientId fromId answer)
        else st1
    else st

/-- Source function `handleOffer(fromId, sdp)` run to the end of its chain. -/
def handleOffer (P : Platform) (sc : Scope) (st : Room) (fromId : String) (sdp : Sdp) : Room :=
  handleOfferFinish P sc (handleOfferStart sc st fromId sdp) fromId sdp

/-! ## The pending-offer flush effect -/

/-- One iteration of the flush loop: the offer is handled and its entry deleted. -/
def flushStep (sc : Scope) (st : Room) (e : String × Sdp) : Room :=
  let st1 := handleOfferStart sc st e.1 e.2
  { st1 with pendingOffers := mapDelete st1.pendingOffers e.1 }

/-- The effect with dependency `[localStream]` that replays the queued offers;
the promise chains of the handled offers run after the loop. -/
def flushPending (P : Platform) (st : Room) : Room :=
  match st.localStream with
  | none => st
  | some _ =>
    let pending := st.pendingOffers
    if pending.length = 0 then st
    else
      let st1 := pending.foldl (flushStep st.scope) st
      pending.foldl (fun s e => handleOfferFinish P st.scope s e.1 e.2) st1

/-! ## The signaling message handler -/

/-- The tail of `socket.onmessage` that every frame not returned from earlier
reaches: the presence branch, the name and registry updates and the append to
`messages`. -/
def fallThrough (sc : Scope) (now : Nat) (st : Room) (p : Payload) : Room :=
  let st1 :=
    if p.type = some "presence" then
      if p.action = some "join" then
        sendProfile sc { st with participants := upsertParticipant now st.participants p.clientId }
      else if p.action = some "leave" then
        { st with participants := removeParticipant st.participants p.clientId }
      else st
    else st
  let st2 :=
    if truthy p.displayName ∧ truthy p.clientId then
      { st1 with displayNames := setDisplayNameFor st1.displayNames p.clientId p.displayName }
    else st1
  let st3 :=
    if truthy p.clientId then
      { st2 with participants := upsertParticipant now st2.participants p.clientId }
    else st2
  { st3 with messages := st3.messages ++ [Msg.payload p] }

/-- The object `mapped` built from a snapshot's entries. -/
def mappedNames (entries : List Entry) : List (String × String) :=
  entries.foldl
    (fun mapped entry =>
      match entry.displayName with
      | some name => if name = "" then mapped else objAssign mapped (keyOf entry.id) name
      | none => mapped)
    []

/-- Object spread `{ ...prev, ...mapped }`. -/
def spread (prev mapped : List (String × String)) : List (String × String) :=
  mapped.foldl (fun acc kv => mapSet acc kv.1 kv.2) prev

/-- The `webrtc` branch of `socket.onmessage` below the addressing check. -/
def webrtcBranch (P : Platform) (sc : Scope) (now : Nat) (st : Room) (p : Payload)
    (fromId : String) : Room :=
  match p.action, p.sdp, p.candidate with
  | some "offer", some sdp, _ =>
    match sc.localStream with
    | none => { st with pendingOffers := mapSet st.pendingOffers fromId sdp }
    | some _ => handleOffer P sc st fromId sdp
  | some "answer", some sdp, _ =>
    match mapGet st.peers fromId with
    | some pc =>
      let st1 := { st with effects := st.effects ++ [Effect.setRemoteDescription fromId sdp] }
      if P.setRemoteDescription fromId pc sdp then
        { st1 with peers := mapSet st1.peers fromId { pc with remoteDescription := some sdp } }
      else st1
    | none => st
  | some "ice", _, some candidate =>
    match mapGet st.peers fromId with
    | some pc =>
      let st1 := { st with effects := st.effects ++ [Effect.addIceCandidate fromId candidate] }
      if P.addIceCandidate fromId pc candidate then
        { st1 with peers := mapSet st1.peers fromId { pc with candidates := pc.candidates ++ [candidate] } }
      else st1
    | none => st
  | _, _, _ => fallThrough sc now st p

/-- The handler `socket.onmessage`; `now` is the reading of `Date.now()`. -/
def onmessage (P : Platform) (sc : Scope) (now : Nat) (st : Room) : Frame → Room
  | Frame.unparseable data => { st with messages := st.messages ++ [Msg.raw data] }
  | Frame.json p =>
    if p.type = some "welcome" ∧ truthy p.clientId then
      let st1 :=
        { st with
          clientId := p.clientId.getD ""
          participants := upsertParticipant now st.participants p.clientId }
      if sc.localName = "" then st1
      else
        sendProfile sc
          { st1 with
            displayNames := setDisplayNameFor st1.displayNames p.clientId (some sc.localName) }
    else
      match p.type, p.participants with
      | some "participants", some entries =>
        let st1 :=
          { st with participants := entries.map (fun entry => { id := entry.id, lastSeen := now }) }
        let mapped := mappedNames entries
        let st2 :=
          if mapped.length > 0 then { st1 with displayNames := spread st1.displayNames mapped }
          else st1
        sendProfile sc st2
      | _, _ =>
        if p.type = some "profile" ∧ truthy p.clientId ∧ truthy p.displayName then
          { st with displayNames := setDisplayNameFor st.displayNames p.clientId p.displayName }
        else
          match p.type, p.from_ with
          | some "webrtc", some fromId =>
            if fromId = "" then fallThrough sc now st p
            else if truthy p.to_ ∧ sc.clientId ≠ "" ∧ p.to_ ≠ some sc.clientId then st
            else webrtcBranch P sc now st p fromId
          | _, _ => fallThrough sc now st p

/-! ## The mesh reconciliation effect -/

/-- The array `ids` of the reconciliation effect: the registry ids that are
truthy and differ from `clientId`, none when `clientId` is empty. -/
def desiredIds (st : Room) : List String :=
  (st.participants.map (fun p => p.id)).filterMap
    (fun id =>
      match id with
      | some i => if i ≠ "" ∧ i ≠ st.clientId ∧ st.clientId ≠ "" then some i else none
      | none => none)

/-- One iteration of `ids.forEach`: the synchronous part of `sendOffer(id)`
when `id` has no connection and the local side initiates; the ids whose offer
chain was started are collected. -/
def initiateStep (sc : Scope) (acc : Room × List String) (id : String) : Room × List String :=
  if !mapHas acc.1.peers id && shouldInitiate sc.clientId id then
    (createPeer sc acc.1 id, acc.2 ++ [id])
  else acc

/-- One iteration of the closing loop over `peersRef.current.entries()`. -/
def closeStep (ids : List String) (st : Room) (e : String × Peer) : Room :=
  if ids.contains e.1 then st
  else
    { st with
      effects := st.effects ++ [Effect.close e.1]
      peers := mapDelete st.peers e.1
      remoteStreams := removeRemoteStream st.remoteStreams e.1 }

/-- The effect with dependencies `[participants, clientId, localStream,
status]`; the offer chains started by `ids.forEach` run after the loops. -/
def reconcile (P : Platform) (st : Room) : Room :=
  if st.localStream = none ∨ st.status ≠ Status.connected then st
  else
    let sc := st.scope
    let st1 := { st with peers := st.peers.map (fun e => (e.1, attachLocalTracks sc e.2)) }
    let ids := desiredIds st
    let started := ids.foldl (initiateStep sc) (st1, [])
    let st3 := started.1.peers.foldl (closeStep ids) started.1
    started.2.foldl (sendOfferFinish P sc) st3

/-! ## Event sequences and sample values -/

/-- An event that changes the registry: a handled frame, or a local
`upsertParticipant` call (as `sendMessage` makes). -/
inductive Event where
  | message (P : Platform) (sc : Scope) (now : Nat) (frame : Frame)
  | localUpsert (now : Nat) (id : Option String)

/-- The state after one event. -/
def step (st : Room) : Event → Room
  | Event.message P sc now frame => onmessage P sc now st frame
  | Event.localUpsert now id => { st with participants := upsertParticipant now st.participants id }

/-- The state after a sequence of events. -/
def run (st : Room) (events : List Event) : Room := events.foldl step st

/-- The event is not a participants snapshot that lists an id twice. -/
def Event.distinctSnapshot : Event → Prop
  | Event.message _ _ _ (Frame.json p) =>
    ∀ entries, p.type = some "participants" → p.participants = some entries →
      (entries.map (fun e => e.id)).Nodup
  | _ => True

/-- A payload with no field set. -/
def Payload.blank : Payload :=
  { type := none, clientId := none, displayName := none, participants := none, from_ := none,
    to_ := none, action := none, sdp := none, candidate := none, rest := "" }

/-- A platform on which every call resolves. -/
def Platform.resolving : Platform :=
  { createOffer := fun _ _ => some { type := "offer", sdp := "v=0" }
    createAnswer := fun _ _ => some { type := "answer", sdp := "v=0" }
    setLocalDescription := fun _ _ _ => true
    setRemoteDescription := fun _ _ _ => true
    addIceCandidate := fun _ _ _ => true }

/-- A platform on which every call rejects. -/
def Platform.rejecting : Platform :=
  { createOffer := fun _ _ => none
    createAnswer := fun _ _ => none
    setLocalDescription := fun _ _ _ => false
    setRemoteDescription := fun _ _ _ => false
    addIceCandidate := fun _ _ _ => false }

/-- The frame `presence` with an action and a client id. -/
def presenceFrame (action clientId : String) : Frame :=
  Frame.json { Payload.blank with
    type := some "presence", action := some action, clientId := some clientId }

/-- The frame `participants` with the given ids. -/
def snapshotFrame (ids : List String) : Frame :=
  Frame.json { Payload.blank with
    type := some "participants"
    participants := some (ids.map (fun i => { id := some i, displayName := none })) }

/-- The frame `webrtc` with action `offer`. -/
def offerFrame (fromId : String) (toId : Option String) (sdp : Sdp) : Frame :=
  Frame.json { Payload.blank with
    type := some "webrtc", action := some "offer", from_ := some fromId, to_ := toId,
    sdp := some sdp }

/-- A registry with the given ids. -/
def registryOf (ids : List String) : List Participant :=
  ids.map (fun i => { id := some i, lastSeen := 0 })

/-- The scope of the first render, before the welcome frame and before local
media is available. The socket effect has the dependencies `[wsUrl]`, so the
handler `socket.onmessage` it installs keeps this scope for as long as the
socket lives. -/
def Scope.initial : Scope := { clientId := "", localName := "", localStream := none }

/-! ## Observations used in the statements -/

/-- The registry invariant: at most one entry per id. -/
def UniqueIds (registry : List Participant) : Prop := (registry.map (fun p => p.id)).Nodup

/-- The offers sent in a trace, as pairs of `from` and `to`. -/
def sentOffers (effects : List Effect) : List (String × String) :=
  effects.filterMap (fun e =>
    match e with
    | Effect.send (Signal.offer f t _) => some (f, t)
    | _ => none)

/-- The answers sent in a trace, as pairs of `from` and `to`. -/
def sentAnswers (effects : List Effect) : List (String × String) :=
  effects.filterMap (fun e =>
    match e with
    | Effect.send (Signal.answer f t _) => some (f, t)
    | _ => none)

/-- Everything sent in a trace. -/
def sentSignals (effects : List Effect) : List Signal :=
  effects.filterMap (fun e =>
    match e with
    | Effect.send sig => some sig
    | _ => none)

/-- The remote ids for which a connection was created in a trace. -/
def createdPeers (effects : List Effect) : List String :=
  effects.filterMap (fun e =>
    match e with
    | Effect.newPeer r => some r
    | _ => none)

/-- The remote ids whose connection was closed in a trace. -/
def closedPeers (effects : List Effect) : List String :=
  effects.filterMap (fun e =>
    match e with
    | Effect.close r => some r
    | _ => none)

/-- The keys of the closing loop's entries that are not in `ids`. -/
def closedKeys (ids : List String) (entries : List (String × Peer)) : List String :=
  (entries.map (fun e => e.1)).filter (fun k => !ids.contains k)

/-- Every track of the local stream has a sender on the connection. -/
def Covered (sc : Scope) (pc : Peer) : Prop :=
  ∀ ls, sc.localStream = some ls →
    ∀ t ∈ ls.tracks, some t.id ∈ pc.senders.map (fun sender => sender.track.map (fun t => t.id))

/-- The second connection map has the keys of the first, in the same order,
and each of its connections has the senders of a connection of the first
under the same key. -/
def SamePeers (a b : List (String × Peer)) : Prop :=
  b.map (fun e => e.1) = a.map (fun e => e.1) ∧
  ∀ e ∈ b, ∃ e0 ∈ a, e0.1 = e.1 ∧ e.2.senders = e0.2.senders

/-- On this platform `createOffer` and `setLocalDescription` always resolve. -/
def Platform.offersResolve (P : Platform) : Prop :=
  (∀ r pc, (P.createOffer r pc).isSome = true) ∧ ∀ r pc o, P.setLocalDescription r pc o = true

/-- On this platform every step of answering an offer resolves. -/
def Platform.answersResolve (P : Platform) : Prop :=
  (∀ r pc o, P.setRemoteDescription r pc o = true) ∧
  (∀ r pc, (P.createAnswer r pc).isSome = true) ∧
  ∀ r pc o, P.setLocalDescription r pc o = true

/-- A local stream with one audio and one video track. -/
def sampleStream : Stream :=
  { id := "local"
    tracks := [{ id := "t-audio", kind := "audio", enabled := false },
      { id := "t-video", kind := "video", enabled := false }] }

/-- A connected room with media ready, local id `clientId` and the given
registry ids, with no connections yet. -/
def readyRoom (clientId : String) (ids : List String) : Room :=
  { Room.init with
    status := Status.connected, socketOpen := true, localStream := some sampleStream,
    clientId := clientId, participants := registryOf ids }

/-- The offers handed to a connection in a trace: sender and payload of each
`setRemoteDescription` call. -/
def handledOffers (effects : List Effect) : List (String × Sdp) :=
  effects.filterMap (fun e =>
    match e with
    | Effect.setRemoteDescription r sdp => some (r, sdp)
    | _ => none)

/-- The state after the handler has received, in this order, broadcast offers
given as pairs of sender and payload. -/
def receiveOffers (P : Platform) (sc : Scope) (now : Nat) (st : Room)
    (offers : List (String × Sdp)) : Room :=
  offers.foldl (fun s o => onmessage P sc now s (offerFrame o.1 none o.2)) st

/-- The state after `setLocalStream(stream)`. -/
def mediaReady (st : Room) (stream : Stream) : Room := { st with localStream := some stream }

/-- The payload of the offer most recently received from a sender, in a list
of received offers ordered by arrival. -/
def latestOffer : List (String × Sdp) → String → Option Sdp
  | [], _ => none
  | o :: rest, f =>
    match latestOffer rest f with
    | some s => some s
    | none => if o.1 = f then some o.2 else none

/-- The senders of a list of received offers, each once, in the order of
their first offer. -/
def firstSeen : List String → List String
  | [] => []
  | x :: rest => x :: (firstSeen rest).filter (fun y => y ≠ x)

/-- Every recorded display name is non-empty. -/
def NamesRecorded (names : List (String × String)) : Prop := ∀ e ∈ names, e.2 ≠ ""

/-- The number of senders of a connection that carry the track with this id. -/
def senderCount (pc : Peer) (trackId : String) : Nat :=
  (pc.senders.map (fun sender => sender.track.map (fun t => t.id))).count (some trackId)

/-- The remote-stream list has at most one entry per id. -/
def UniqueStreams (streams : List RemoteStream) : Prop :=
  (streams.map (fun item => item.id)).Nodup

/-- The frame `webrtc` with action `answer`. -/
def answerFrame (fromId : String) (sdp : Sdp) : Frame :=
  Frame.json { Payload.blank with
    type := some "webrtc", action := some "answer", from_ := some fromId, sdp := some sdp }

/-- The frame `webrtc` with action `ice`. -/
def iceFrame (fromId : String) (candidate : Candidate) : Frame :=
  Frame.json { Payload.blank with
    type := some "webrtc", action := some "ice", from_ := some fromId,
    candidate := some candidate }

/-- The frame `welcome` that assigns a client id. -/
def welcomeFrame (clientId : String) : Frame :=
  Frame.json { Payload.blank with type := some "welcome", clientId := some clientId }

/-- The frame `chat` of a client. -/
def chatFrame (clientId : String) : Frame :=
  Frame.json { Payload.blank with type := some "chat", clientId := some clientId }

/-! ## The identifier ordering -/

theorem ltUnits_irrefl (l : List Nat) : ltUnits l l = false := by
  induction l with
  | nil => rfl
  | cons a as ih => simp [ltUnits, ih]

theorem ltUnits_asymm : ∀ a b : List Nat, ltUnits a b = true → ltUnits b a = false
  | [], [], _ => rfl
  | [], _ :: _, _ => rfl
  | _ :: _, [], h => by simp [ltUnits] at h
  | a :: as, b :: bs, h => by
    simp only [ltUnits] at h ⊢
    by_cases h1 : a < b
    · have h2 : ¬ b < a := by omega
      simp [h2, h1]
    · by_cases h2 : b < a
      · simp [h1, h2] at h
      · simp only [h1, h2, if_false] at h ⊢
        exact ltUnits_asymm as bs h

theorem ltUnits_total : ∀ a b : List Nat, a ≠ b → ltUnits a b = true ∨ ltUnits b a = true
  | [], [], h => absurd rfl h
  | [], _ :: _, _ => Or.inl rfl
  | _ :: _, [], _ => Or.inr rfl
  | a :: as, b :: bs, h => by
    simp only [ltUnits]
    by_cases h1 : a < b
    · simp [h1]
    · by_cases h2 : b < a
      · simp [h2]
      · have hab : a = b := by omega
        subst hab
        have hne : as ≠ bs := fun e => h (by rw [e])
        simpa [h1] using ltUnits_total as bs hne

theorem ltUnits_iff_lex : ∀ a b : List Nat, ltUnits a b = true ↔ List.Lex (· < ·) a b
  | [], [] => by simp [ltUnits]
  | [], _ :: _ => by simp [ltUnits, List.Lex.nil]
  | _ :: _, [] => by simp [ltUnits]
  | a :: as, b :: bs => by
    simp only [ltUnits]
    by_cases h1 : a < b
    · simp only [h1, if_true, true_iff]
      exact List.Lex.rel h1
    · by_cases h2 : b < a
      · simp only [h1, h2, if_true, if_false, Bool.false_eq_true, false_iff]
        intro h
        cases h with
        | cons _ => omega
        | rel h3 => exact h1 h3
      · have hab : a = b := by omega
        subst hab
        simp only [h1, if_false]
        rw [ltUnits_iff_lex as bs]
        constructor
        · intro h
          exact List.Lex.cons h
        · intro h
          cases h with
          | cons h3 => exact h3
          | rel h3 => exact absurd h3 h1

theorem char_toNat_valid (c : Char) :
    c.toNat < 0xD800 ∨ (0xDFFF < c.toNat ∧ c.toNat < 0x110000) := c.valid

theorem char_eq_of_toNat_eq {c d : Char} (h : c.toNat = d.toNat) : c = d := by
  apply Char.ext
  apply UInt32.ext
  exact h

theorem unitsOf_cons_inj (c d : Char) (xs ys : List Nat)
    (h : utf16 c ++ xs = utf16 d ++ ys) : c = d ∧ xs = ys := by
  have hc := char_toNat_valid c
  have hd := char_toNat_valid d
  unfold utf16 at h
  by_cases h1 : c.toNat < 0x10000 <;> by_cases h2 : d.toNat < 0x10000
  · simp only [h1, h2, if_true, List.cons_append, List.nil_append, List.cons.injEq] at h
    exact ⟨char_eq_of_toNat_eq h.1, h.2⟩
  · simp only [h1, h2, if_true, if_false, List.cons_append, List.nil_append,
      List.cons.injEq] at h
    omega
  · simp only [h1, h2, if_true, if_false, List.cons_append, List.nil_append,
      List.cons.injEq] at h
    omega
  · simp only [h1, h2, if_false, List.cons_append, List.nil_append, List.cons.injEq] at h
    refine ⟨char_eq_of_toNat_eq ?_, h.2.2⟩
    omega

theorem utf16_ne_nil (c : Char) : utf16 c ≠ [] := by
  unfold utf16
  split <;> simp

theorem unitsOf_injective : ∀ a b : List Char, unitsOf a = unitsOf b → a = b
  | [], [], _ => rfl
  | [], d :: ds, h => by
    have hne := utf16_ne_nil d
    cases hu : utf16 d with
    | nil => exact absurd hu hne
    | cons x xs => simp [unitsOf, hu] at h
  | c :: cs, [], h => by
    have hne := utf16_ne_nil c
    cases hu : utf16 c with
    | nil => exact absurd hu hne
    | cons x xs => simp [unitsOf, hu] at h
  | c :: cs, d :: ds, h => by
    have h1 := unitsOf_cons_inj c d _ _ h
    rw [h1.1, unitsOf_injective cs ds h1.2]

theorem codeUnits_injective {a b : String} (h : codeUnits a = codeUnits b) : a = b := by
  cases a with
  | mk as =>
    cases b with
    | mk bs =>
      have := unitsOf_injective as bs h
      rw [this]

theorem jsLt_irrefl (a : String) : jsLt a a = false := ltUnits_irrefl _

theorem jsLt_asymm {a b : String} (h : jsLt a b = true) : jsLt b a = false :=
  ltUnits_asymm _ _ h

theorem jsLt_total {a b : String} (h : a ≠ b) : jsLt a b = true ∨ jsLt b a = true :=
  ltUnits_total _ _ (fun e => h (codeUnits_injective e))

/-- Claim C2. Glare avoidance: of two distinct client ids exactly one side
decides to initiate, namely the one whose id is the smaller in the identifier
ordering (lexicographic order of the UTF-16 code units), and no id initiates
toward itself. -/
theorem shouldInitiate_glare_avoidance (a b : String) (h : a ≠ b) :
    (shouldInitiate a b = true ↔ shouldInitiate b a = false) ∧
    (shouldInitiate a b = true ↔ List.Lex (· < ·) (codeUnits a) (codeUnits b)) ∧
    (shouldInitiate b a = true ↔ List.Lex (· < ·) (codeUnits b) (codeUnits a)) ∧
    shouldInitiate a a = false ∧ shouldInitiate b b = false := by
  refine ⟨⟨fun h1 => jsLt_asymm h1, fun h1 => ?_⟩, ltUnits_iff_lex _ _, ltUnits_iff_lex _ _,
    jsLt_irrefl a, jsLt_irrefl b⟩
  rcases jsLt_total h with h2 | h2
  · exact h2
  · have h3 : jsLt b a = false := h1
    rw [h3] at h2
    exact absurd h2 (by simp)

theorem shouldInitiate_glare_avoidance_witness :
    "a3" ≠ "b7" ∧ shouldInitiate "a3" "b7" = true ∧ shouldInitiate "b7" "a3" = false := by
  have h : "a3" ≠ "b7" := by decide
  have hab : shouldInitiate "a3" "b7" = true := by decide
  exact ⟨h, hab, (shouldInitiate_glare_avoidance "a3" "b7" h).1.1 hab⟩

/-! ## Registry lemmas -/

theorem mem_ids_upsertParticipant (now : Nat) (prev : List Participant) (id : Option String) :
    id ∈ (upsertParticipant now prev id).map (fun p => p.id) := by
  unfold upsertParticipant
  by_cases h : prev.any (fun p => decide (p.id = id)) = true
  · rw [if_pos h]
    rw [List.any_eq_true] at h
    obtain ⟨q, hq, hqid⟩ := h
    have hqid2 : q.id = id := by simpa using hqid
    rw [List.mem_map]
    refine ⟨{ q with lastSeen := now }, ?_, hqid2⟩
    rw [List.mem_map]
    exact ⟨q, hq, by simp [hqid2]⟩
  · rw [if_neg h]
    simp

theorem onmessage_presence (P : Platform) (sc : Scope) (now : Nat) (st : Room) (p : Payload)
    (ht : p.type = some "presence") :
    onmessage P sc now st (Frame.json p) = fallThrough sc now st p := by
  simp [onmessage, ht]

/-- Claim C1, as the code behaves: after `presence` with action `leave` and a
non-empty `clientId` X has been handled, the registry again holds an entry
with id X, because the frame falls through to the generic `upsertParticipant`
call after the removal. -/
theorem presence_leave_reinserts (P : Platform) (sc : Scope) (now : Nat) (st : Room)
    (p : Payload) (x : String) (ht : p.type = some "presence") (ha : p.action = some "leave")
    (hc : p.clientId = some x) (hx : x ≠ "") :
    some x ∈ (onmessage P sc now st (Frame.json p)).participants.map (fun q => q.id) := by
  rw [onmessage_presence P sc now st p ht]
  have htr : truthy (some x) = true := by simp [truthy, hx]
  simp only [fallThrough, ht, ha, hc, htr, if_true]
  split <;> exact mem_ids_upsertParticipant _ _ _

theorem presence_leave_reinserts_witness :
    "b7" ≠ "" ∧
    some "b7" ∈
      (onmessage Platform.resolving Scope.initial 1
        { Room.init with participants := registryOf ["b7"] }
        (presenceFrame "leave" "b7")).participants.map (fun q => q.id) :=
  ⟨by decide,
   presence_leave_reinserts Platform.resolving Scope.initial 1
     { Room.init with participants := registryOf ["b7"] } _ "b7" rfl rfl rfl (by decide)⟩

/-! ## Fields an operation leaves alone -/

@[simp] theorem sendSignal_participants (st : Room) (sig : Signal) :
    (sendSignal st sig).participants = st.participants := by
  unfold sendSignal; split <;> rfl

@[simp] theorem sendSignal_peers (st : Room) (sig : Signal) :
    (sendSignal st sig).peers = st.peers := by
  unfold sendSignal; split <;> rfl

@[simp] theorem sendSignal_pendingOffers (st : Room) (sig : Signal) :
    (sendSignal st sig).pendingOffers = st.pendingOffers := by
  unfold sendSignal; split <;> rfl

@[simp] theorem sendSignal_remoteStreams (st : Room) (sig : Signal) :
    (sendSignal st sig).remoteStreams = st.remoteStreams := by
  unfold sendSignal; split <;> rfl

@[simp] theorem sendSignal_socketOpen (st : Room) (sig : Signal) :
    (sendSignal st sig).socketOpen = st.socketOpen := by
  unfold sendSignal; split <;> rfl

@[simp] theorem sendProfile_participants (sc : Scope) (st : Room) :
    (sendProfile sc st).participants = st.participants := by
  unfold sendProfile; split <;> simp

@[simp] theorem sendProfile_peers (sc : Scope) (st : Room) :
    (sendProfile sc st).peers = st.peers := by
  unfold sendProfile; split <;> simp

@[simp] theorem sendProfile_pendingOffers (sc : Scope) (st : Room) :
    (sendProfile sc st).pendingOffers = st.pendingOffers := by
  unfold sendProfile; split <;> simp

@[simp] theorem createPeer_participants (sc : Scope) (st : Room) (r : String) :
    (createPeer sc st r).participants = st.participants := by
  unfold createPeer; split <;> rfl

@[simp] theorem createPeer_pendingOffers (sc : Scope) (st : Room) (r : String) :
    (createPeer sc st r).pendingOffers = st.pendingOffers := by
  unfold createPeer; split <;> rfl

@[simp] theorem createPeer_remoteStreams (sc : Scope) (st : Room) (r : String) :
    (createPeer sc st r).remoteStreams = st.remoteStreams := by
  unfold createPeer; split <;> rfl

@[simp] theorem createPeer_socketOpen (sc : Scope) (st : Room) (r : String) :
    (createPeer sc st r).socketOpen = st.socketOpen := by
  unfold createPeer; split <;> rfl

@[simp] theorem handleOfferStart_participants (sc : Scope) (st : Room) (f : String) (s : Sdp) :
    (handleOfferStart sc st f s).participants = st.participants := by
  simp [handleOfferStart]

@[simp] theorem handleOfferStart_pendingOffers (sc : Scope) (st : Room) (f : String) (s : Sdp) :
    (handleOfferStart sc st f s).pendingOffers = st.pendingOffers := by
  simp [handleOfferStart]

@[simp] theorem handleOfferFinish_participants (P : Platform) (sc : Scope) (st : Room)
    (f : String) (s : Sdp) :
    (handleOfferFinish P sc st f s).participants = st.participants := by
  unfold handleOfferFinish
  split
  · rfl
  · split
    · dsimp only
      split
      · rfl
      · split <;> simp
    · rfl

@[simp] theorem handleOfferFinish_pendingOffers (P : Platform) (sc : Scope) (st : Room)
    (f : String) (s : Sdp) :
    (handleOfferFinish P sc st f s).pendingOffers = st.pendingOffers := by
  unfold handleOfferFinish
  split
  · rfl
  · split
    · dsimp only
      split
      · rfl
      · split <;> simp
    · rfl

@[simp] theorem handleOffer_participants (P : Platform) (sc : Scope) (st : Room)
    (f : String) (s : Sdp) :
    (handleOffer P sc st f s).participants = st.participants := by
  simp [handleOffer]

/-! ## The registry holds each id once -/

theorem upsertParticipant_unique (now : Nat) (prev : List Participant) (id : Option String)
    (h : UniqueIds prev) : UniqueIds (upsertParticipant now prev id) := by
  unfold UniqueIds at h ⊢
  unfold upsertParticipant
  by_cases hex : prev.any (fun p => decide (p.id = id)) = true
  · rw [if_pos hex]
    have hmap : (prev.map (fun p => if p.id = id then { p with lastSeen := now } else p)).map
        (fun p => p.id) = prev.map (fun p => p.id) := by
      rw [List.map_map]
      apply List.map_congr_left
      intro q _
      simp only [Function.comp]
      split <;> rfl
    rw [hmap]
    exact h
  · rw [if_neg hex]
    rw [List.map_append, List.nodup_append]
    refine ⟨h, by simp, ?_⟩
    intro a ha hb
    have hb2 : a = id := by simpa using hb
    subst hb2
    apply hex
    rw [List.any_eq_true]
    rw [List.mem_map] at ha
    obtain ⟨q, hq, hqid⟩ := ha
    exact ⟨q, hq, by simp [hqid]⟩

theorem removeParticipant_unique (prev : List Participant) (id : Option String)
    (h : UniqueIds prev) : UniqueIds (removeParticipant prev id) := by
  unfold UniqueIds at h ⊢
  unfold removeParticipant
  exact h.sublist ((List.filter_sublist prev).map _)

theorem fallThrough_unique (sc : Scope) (now : Nat) (st : Room) (p : Payload)
    (h : UniqueIds st.participants) : UniqueIds (fallThrough sc now st p).participants := by
  unfold fallThrough
  have h1 : UniqueIds
      (if p.type = some "presence" then
        if p.action = some "join" then
          sendProfile sc { st with participants := upsertParticipant now st.participants p.clientId }
        else if p.action = some "leave" then
          { st with participants := removeParticipant st.participants p.clientId }
        else st
      else st).participants := by
    split
    · split
      · simpa using upsertParticipant_unique now _ _ h
      · split
        · exact removeParticipant_unique _ _ h
        · exact h
    · exact h
  generalize (if p.type = some "presence" then
        if p.action = some "join" then
          sendProfile sc { st with participants := upsertParticipant now st.participants p.clientId }
        else if p.action = some "leave" then
          { st with participants := removeParticipant st.participants p.clientId }
        else st
      else st) = st1 at h1
  dsimp only
  split <;> split <;> first
    | exact upsertParticipant_unique now _ _ h1
    | exact h1

theorem webrtcBranch_unique (P : Platform) (sc : Scope) (now : Nat) (st : Room) (p : Payload)
    (f : String) (h : UniqueIds st.participants) :
    UniqueIds (webrtcBranch P sc now st p f).participants := by
  unfold webrtcBranch
  split
  · split
    · exact h
    · simpa using h
  · split
    · dsimp only
      split <;> exact h
    · exact h
  · split
    · dsimp only
      split <;> exact h
    · exact h
  · exact fallThrough_unique sc now st p h

theorem onmessage_snapshot (P : Platform) (sc : Scope) (now : Nat) (st : Room) (p : Payload)
    (entries : List Entry) (ht : p.type = some "participants")
    (hp : p.participants = some entries) :
    (onmessage P sc now st (Frame.json p)).participants =
      entries.map (fun entry => { id := entry.id, lastSeen := now }) := by
  simp only [onmessage, ht, hp]
  rw [if_neg (by simp)]
  simp only [sendProfile_participants]
  split <;> rfl

theorem onmessage_unique (P : Platform) (sc : Scope) (now : Nat) (st : Room) (frame : Frame)
    (hs : (Event.message P sc now frame).distinctSnapshot) (h : UniqueIds st.participants) :
    UniqueIds (onmessage P sc now st frame).participants := by
  cases frame with
  | unparseable data => exact h
  | json p =>
    by_cases hsnap : ∃ entries, p.type = some "participants" ∧ p.participants = some entries
    · obtain ⟨entries, ht, hp⟩ := hsnap
      rw [onmessage_snapshot P sc now st p entries ht hp]
      have hd := hs entries ht hp
      unfold UniqueIds
      rw [List.map_map]
      exact hd
    · simp only [onmessage]
      split
      · split
        · exact upsertParticipant_unique now _ _ h
        · simpa using upsertParticipant_unique now _ _ h
      · split
        · rename_i entries ht hp
          exact absurd ⟨entries, ht, hp⟩ hsnap
        · split
          · exact h
          · split
            · split
              · exact fallThrough_unique sc now st p h
              · split
                · exact h
                · exact webrtcBranch_unique P sc now st p _ h
            · exact fallThrough_unique sc now st p h

theorem step_unique (st : Room) (e : Event) (hs : e.distinctSnapshot)
    (h : UniqueIds st.participants) : UniqueIds (step st e).participants := by
  cases e with
  | message P sc now frame => exact onmessage_unique P sc now st frame hs h
  | localUpsert now id => exact upsertParticipant_unique now _ _ h

theorem run_unique (events : List Event) :
    ∀ st : Room, (∀ e ∈ events, e.distinctSnapshot) → UniqueIds st.participants →
      UniqueIds (run st events).participants := by
  induction events with
  | nil => intro st _ h; exact h
  | cons e rest ih =>
    intro st hs h
    exact ih (step st e) (fun e2 he2 => hs e2 (List.mem_cons_of_mem _ he2))
      (step_unique st e (hs e (List.mem_cons_self _ _)) h)

/-- Claim C7, as the code behaves: a participants snapshot that lists an id
twice puts two entries with that id into the registry. -/
theorem snapshot_duplicate_breaks_unique :
    ¬ UniqueIds
      (run Room.init
        [Event.message Platform.resolving Scope.initial 0
          (snapshotFrame ["a3", "a3"])]).participants := by
  unfold UniqueIds
  decide

/-- Claim C7, amended: starting from the empty registry, after any sequence of
handled frames and local upserts in which no participants snapshot lists an id
twice, the registry holds at most one entry per id. -/
theorem registry_unique_of_distinct_snapshots (events : List Event)
    (h : ∀ e ∈ events, e.distinctSnapshot) :
    UniqueIds (run Room.init events).participants :=
  run_unique events Room.init h (by unfold UniqueIds; exact List.nodup_nil)

theorem registry_unique_of_distinct_snapshots_witness :
    UniqueIds
      (run Room.init
        [Event.message Platform.resolving Scope.initial 1
           (Frame.json { Payload.blank with type := some "welcome", clientId := some "a3" }),
         Event.message Platform.resolving Scope.initial 2 (snapshotFrame ["a3", "b7"]),
         Event.message Platform.resolving Scope.initial 3 (presenceFrame "join" "c1"),
         Event.message Platform.resolving Scope.initial 4 (presenceFrame "leave" "b7"),
         Event.localUpsert 5 (some "a3")]).participants :=
  registry_unique_of_distinct_snapshots _ (by
    intro e he
    simp only [List.mem_cons, List.mem_singleton, List.not_mem_nil, or_false] at he
    rcases he with rfl | rfl | rfl | rfl | rfl
    · intro entries ht _
      exact absurd ht (by decide)
    · intro entries _ hp
      have he : entries = [{ id := some "a3", displayName := none },
          { id := some "b7", displayName := none }] := by
        simpa [snapshotFrame, Payload.blank] using hp.symm
      subst he
      decide
    · intro entries ht _
      exact absurd ht (by decide)
    · intro entries ht _
      exact absurd ht (by decide)
    · trivial)

/-- Claim C6, as the code behaves: a snapshot that does not list an id of the
registry removes it. -/
theorem snapshot_removes_absent_id :
    some "a3" ∈ (registryOf ["a3"]).map (fun q => q.id) ∧
    some "a3" ∉
      (onmessage Platform.resolving Scope.initial 1
        { Room.init with participants := registryOf ["a3"] }
        (snapshotFrame ["b7"])).participants.map (fun q => q.id) := by
  decide

/-- Claim C6, amended: handling a participants snapshot replaces the registry
by the snapshot. Afterwards the registry lists exactly the ids of the
snapshot, in the order of the snapshot: each id of the snapshot is present,
and an id that was present before is present only if the snapshot lists it. -/
theorem snapshot_replaces_registry (P : Platform) (sc : Scope) (now : Nat) (st : Room)
    (p : Payload) (entries : List Entry) (ht : p.type = some "participants")
    (hp : p.participants = some entries) :
    (onmessage P sc now st (Frame.json p)).participants.map (fun q => q.id) =
        entries.map (fun e => e.id) ∧
    (∀ e ∈ entries,
      e.id ∈ (onmessage P sc now st (Frame.json p)).participants.map (fun q => q.id)) ∧
    (∀ q ∈ st.participants,
      q.id ∈ (onmessage P sc now st (Frame.json p)).participants.map (fun q => q.id) ↔
        q.id ∈ entries.map (fun e => e.id)) := by
  have h : (onmessage P sc now st (Frame.json p)).participants.map (fun q => q.id) =
      entries.map (fun e => e.id) := by
    rw [onmessage_snapshot P sc now st p entries ht hp, List.map_map]
    rfl
  rw [h]
  exact ⟨rfl, fun e he => List.mem_map_of_mem _ he, fun _ _ => Iff.rfl⟩

theorem snapshot_replaces_registry_witness :
    (onmessage Platform.resolving Scope.initial 1
        { Room.init with participants := registryOf ["a3"] }
        (snapshotFrame ["a3", "b7"])).participants.map (fun q => q.id) =
      [some "a3", some "b7"] :=
  (snapshot_replaces_registry Platform.resolving Scope.initial 1
    { Room.init with participants := registryOf ["a3"] } _
    [{ id := some "a3", displayName := none }, { id := some "b7", displayName := none }]
    rfl rfl).1

/-! ## Map lemmas -/

theorem mapGet_mapSet_self {V : Type} (m : List (String × V)) (k : String) (v : V) :
    mapGet (mapSet m k v) k = some v := by
  induction m with
  | nil => simp [mapSet, mapGet]
  | cons e rest ih =>
    obtain ⟨k2, w⟩ := e
    by_cases h : k2 = k
    · simp [mapSet, mapGet, h]
    · simp [mapSet, mapGet, h, ih]

theorem mapGet_mapSet_ne {V : Type} (m : List (String × V)) (k g : String) (v : V)
    (hne : g ≠ k) : mapGet (mapSet m k v) g = mapGet m g := by
  induction m with
  | nil =>
    have h2 : ¬ k = g := fun e => hne e.symm
    simp [mapSet, mapGet, h2]
  | cons e rest ih =>
    obtain ⟨k2, w⟩ := e
    by_cases h : k2 = k
    · have h2 : ¬ k2 = g := fun e => hne (by rw [← e, h])
      have h4 : ¬ k = g := fun e => hne e.symm
      simp [mapSet, mapGet, h, h4]
    · by_cases h3 : k2 = g
      · subst h3
        simp [mapSet, mapGet, h]
      · simp [mapSet, mapGet, h, h3, ih]

/-! ## The handler on `webrtc` frames -/

theorem fallThrough_peers (sc : Scope) (now : Nat) (st : Room) (p : Payload) :
    (fallThrough sc now st p).peers = st.peers := by
  unfold fallThrough
  dsimp only
  repeat' split
  all_goals simp

theorem fallThrough_pendingOffers (sc : Scope) (now : Nat) (st : Room) (p : Payload) :
    (fallThrough sc now st p).pendingOffers = st.pendingOffers := by
  unfold fallThrough
  dsimp only
  repeat' split
  all_goals simp

theorem fallThrough_effects (sc : Scope) (now : Nat) (st : Room) (p : Payload)
    (ht : p.type ≠ some "presence") : (fallThrough sc now st p).effects = st.effects := by
  unfold fallThrough
  rw [if_neg ht]
  dsimp only
  repeat' split
  all_goals rfl

theorem onmessage_webrtc (P : Platform) (sc : Scope) (now : Nat) (st : Room) (p : Payload)
    (ht : p.type = some "webrtc") :
    onmessage P sc now st (Frame.json p) =
      match p.from_ with
      | some fromId =>
        if fromId = "" then fallThrough sc now st p
        else if truthy p.to_ ∧ sc.clientId ≠ "" ∧ p.to_ ≠ some sc.clientId then st
        else webrtcBranch P sc now st p fromId
      | none => fallThrough sc now st p := by
  cases hf : p.from_ <;> simp [onmessage, ht, hf]

/-- Claim C8. An offer from F with payload S that arrives while local media is
not ready, and that the addressing check of the handler does not turn away as
addressed to another id, is only queued: the pending-offer map then maps F to
S, every other key reads as before, and nothing else in the state changes; in
particular no connection is created and nothing is sent. -/
theorem offer_queued_when_media_not_ready (P : Platform) (sc : Scope) (now : Nat) (st : Room)
    (p : Payload) (f : String) (s : Sdp) (hm : sc.localStream = none)
    (ht : p.type = some "webrtc") (hf : p.from_ = some f) (hne : f ≠ "")
    (ha : p.action = some "offer") (hs : p.sdp = some s)
    (hto : ¬ (truthy p.to_ = true ∧ sc.clientId ≠ "" ∧ p.to_ ≠ some sc.clientId)) :
    onmessage P sc now st (Frame.json p) =
        { st with pendingOffers := mapSet st.pendingOffers f s } ∧
    mapGet (onmessage P sc now st (Frame.json p)).pendingOffers f = some s ∧
    (∀ g, g ≠ f →
      mapGet (onmessage P sc now st (Frame.json p)).pendingOffers g =
        mapGet st.pendingOffers g) ∧
    (onmessage P sc now st (Frame.json p)).peers = st.peers ∧
    (onmessage P sc now st (Frame.json p)).effects = st.effects := by
  have h : onmessage P sc now st (Frame.json p) =
      { st with pendingOffers := mapSet st.pendingOffers f s } := by
    rw [onmessage_webrtc P sc now st p ht, hf]
    dsimp only
    rw [if_neg hne, if_neg hto]
    simp only [webrtcBranch, ha, hs, hm]
  rw [h]
  exact ⟨rfl, mapGet_mapSet_self _ _ _, fun g hg => mapGet_mapSet_ne _ _ _ _ hg, rfl, rfl⟩

theorem offer_queued_when_media_not_ready_witness :
    onmessage Platform.resolving Scope.initial 1
        { Room.init with
          clientId := "a3"
          pendingOffers := [("z9", { type := "offer", sdp := "old" })] }
        (offerFrame "z9" (some "a3") { type := "offer", sdp := "new" }) =
      { Room.init with
        clientId := "a3"
        pendingOffers := [("z9", { type := "offer", sdp := "new" })] } ∧
    onmessage Platform.resolving Scope.initial 1
        { Room.init with clientId := "a3" }
        (offerFrame "z9" none { type := "offer", sdp := "new" }) =
      { Room.init with
        clientId := "a3"
        pendingOffers := [("z9", { type := "offer", sdp := "new" })] } :=
  ⟨(offer_queued_when_media_not_ready Platform.resolving Scope.initial 1
      { Room.init with
        clientId := "a3"
        pendingOffers := [("z9", { type := "offer", sdp := "old" })] } _ "z9"
      { type := "offer", sdp := "new" } rfl rfl rfl (by decide) rfl rfl (by decide)).1,
   (offer_queued_when_media_not_ready Platform.resolving Scope.initial 1
      { Room.init with clientId := "a3" } _ "z9"
      { type := "offer", sdp := "new" } rfl rfl rfl (by decide) rfl rfl (by decide)).1⟩

/-- What the addressing check does for a handler whose own `clientId` is
non-empty: a `webrtc` frame whose `to` is a non-empty id different from it
leaves the connection map and the pending-offer map unchanged and sends
nothing. -/
theorem addressing_check_turns_away (P : Platform) (sc : Scope) (now : Nat) (st : Room)
    (p : Payload) (t : String) (ht : p.type = some "webrtc") (hto : p.to_ = some t)
    (ht1 : t ≠ "") (ht2 : t ≠ sc.clientId) (hc : sc.clientId ≠ "") :
    (onmessage P sc now st (Frame.json p)).peers = st.peers ∧
    (onmessage P sc now st (Frame.json p)).pendingOffers = st.pendingOffers ∧
    (onmessage P sc now st (Frame.json p)).effects = st.effects := by
  have hguard : truthy p.to_ = true ∧ sc.clientId ≠ "" ∧ p.to_ ≠ some sc.clientId := by
    refine ⟨by simp [hto, truthy, ht1], hc, ?_⟩
    rw [hto]
    intro h
    exact ht2 (Option.some.inj h)
  have hft : p.type ≠ some "presence" := by rw [ht]; decide
  have hfall : (fallThrough sc now st p).peers = st.peers ∧
      (fallThrough sc now st p).pendingOffers = st.pendingOffers ∧
      (fallThrough sc now st p).effects = st.effects :=
    ⟨fallThrough_peers sc now st p, fallThrough_pendingOffers sc now st p,
      fallThrough_effects sc now st p hft⟩
  rw [onmessage_webrtc P sc now st p ht]
  cases hfrom : p.from_ with
  | none => exact hfall
  | some f =>
    dsimp only
    by_cases hf : f = ""
    · rw [if_pos hf]
      exact hfall
    · rw [if_neg hf, if_pos hguard]
      exact ⟨rfl, rfl, rfl⟩

/-- Claim C10, as the code behaves: the handler keeps the `clientId` of the
render that opened the socket, the empty string, so its addressing check turns
no frame away: whatever local id the state holds and whatever id the offer is
addressed to, the offer is queued and the pending-offer map changes. -/
theorem stale_handler_queues_offer_to_other (P : Platform) (sc : Scope) (now : Nat)
    (st : Room) (p : Payload) (f t : String) (s : Sdp) (hsc : sc.clientId = "")
    (hm : sc.localStream = none) (ht : p.type = some "webrtc") (hf : p.from_ = some f)
    (hne : f ≠ "") (ha : p.action = some "offer") (hs : p.sdp = some s)
    (hto : p.to_ = some t) (hother : t ≠ "" ∧ t ≠ st.clientId) :
    p.to_ ≠ some st.clientId ∧
    onmessage P sc now st (Frame.json p) =
        { st with pendingOffers := mapSet st.pendingOffers f s } ∧
    mapGet (onmessage P sc now st (Frame.json p)).pendingOffers f = some s := by
  have hguard : ¬ (truthy p.to_ = true ∧ sc.clientId ≠ "" ∧ p.to_ ≠ some sc.clientId) :=
    fun h => h.2.1 hsc
  have h : onmessage P sc now st (Frame.json p) =
      { st with pendingOffers := mapSet st.pendingOffers f s } := by
    rw [onmessage_webrtc P sc now st p ht, hf]
    dsimp only
    rw [if_neg hne, if_neg hguard]
    simp only [webrtcBranch, ha, hs, hm]
  rw [h]
  refine ⟨?_, rfl, mapGet_mapSet_self _ _ _⟩
  rw [hto]
  exact fun e => hother.2 (Option.some.inj e)

theorem stale_handler_queues_offer_to_other_witness :
    (run Room.init
      [Event.message Platform.resolving Scope.initial 1 (welcomeFrame "a3")]).clientId = "a3" ∧
    (run Room.init
      [Event.message Platform.resolving Scope.initial 1 (welcomeFrame "a3")]).pendingOffers
      = [] ∧
    mapGet
      (onmessage Platform.resolving Scope.initial 2
        (run Room.init [Event.message Platform.resolving Scope.initial 1 (welcomeFrame "a3")])
        (offerFrame "z9" (some "q1") { type := "offer", sdp := "v=0" })).pendingOffers "z9" =
      some { type := "offer", sdp := "v=0" } :=
  ⟨by decide, by decide,
   (stale_handler_queues_offer_to_other Platform.resolving Scope.initial 2
      (run Room.init [Event.message Platform.resolving Scope.initial 1 (welcomeFrame "a3")])
      _ "z9" "q1" { type := "offer", sdp := "v=0" } rfl rfl rfl rfl (by decide) rfl rfl rfl
      (by decide)).2.2⟩

/-! ## More map lemmas -/

theorem mapHas_iff_mem_keys {V : Type} (m : List (String × V)) (k : String) :
    mapHas m k = true ↔ k ∈ m.map (fun e => e.1) := by
  unfold mapHas
  induction m with
  | nil => simp [mapGet]
  | cons e rest ih =>
    obtain ⟨k2, w⟩ := e
    by_cases h : k2 = k
    · simp [mapGet, h]
    · have h2 : ¬ k = k2 := fun e => h e.symm
      simp [mapGet, h, h2, ih]

theorem mapHas_false_iff {V : Type} (m : List (String × V)) (k : String) :
    mapHas m k = false ↔ k ∉ m.map (fun e => e.1) := by
  rw [← mapHas_iff_mem_keys]
  simp

theorem mapGet_some_mem {V : Type} (m : List (String × V)) (k : String) (v : V)
    (h : mapGet m k = some v) : (k, v) ∈ m := by
  induction m with
  | nil => simp [mapGet] at h
  | cons e rest ih =>
    obtain ⟨k2, w⟩ := e
    by_cases h2 : k2 = k
    · simp [mapGet, h2] at h
      simp [h2, h]
    · simp [mapGet, h2] at h
      exact List.mem_cons_of_mem _ (ih h)

theorem mapHas_of_mapGet {V : Type} (m : List (String × V)) (k : String) (v : V)
    (h : mapGet m k = some v) : mapHas m k = true := by
  simp [mapHas, h]

theorem mapSet_of_not_has {V : Type} (m : List (String × V)) (k : String) (v : V)
    (h : mapHas m k = false) : mapSet m k v = m ++ [(k, v)] := by
  induction m with
  | nil => rfl
  | cons e rest ih =>
    obtain ⟨k2, w⟩ := e
    by_cases h2 : k2 = k
    · simp [mapHas, mapGet, h2] at h
    · have h3 : mapHas rest k = false := by
        simpa [mapHas, mapGet, h2] using h
      simp [mapSet, h2, ih h3]

theorem mem_mapSet {V : Type} (m : List (String × V)) (k : String) (v : V) (e : String × V)
    (h : e ∈ mapSet m k v) : e ∈ m ∨ e = (k, v) := by
  induction m with
  | nil =>
    right
    simpa [mapSet] using h
  | cons e2 rest ih =>
    obtain ⟨k2, w⟩ := e2
    by_cases h2 : k2 = k
    · simp only [mapSet, h2, if_true, List.mem_cons] at h
      rcases h with h | h
      · right; exact h
      · left; exact List.mem_cons_of_mem _ h
    · simp only [mapSet, h2, if_false, List.mem_cons] at h
      rcases h with h | h
      · left; rw [h]; exact List.mem_cons_self _ _
      · rcases ih h with h3 | h3
        · left; exact List.mem_cons_of_mem _ h3
        · right; exact h3

theorem keys_mapSet_of_has {V : Type} (m : List (String × V)) (k : String) (v : V)
    (h : mapHas m k = true) :
    (mapSet m k v).map (fun e => e.1) = m.map (fun e => e.1) := by
  induction m with
  | nil => simp [mapHas, mapGet] at h
  | cons e rest ih =>
    obtain ⟨k2, w⟩ := e
    by_cases h2 : k2 = k
    · simp [mapSet, h2]
    · have h3 : mapHas rest k = true := by
        simpa [mapHas, mapGet, h2] using h
      simp [mapSet, h2, ih h3]

theorem mapHas_mapSet_of_has {V : Type} (m : List (String × V)) (k : String) (v : V)
    (x : String) (h : mapHas m k = true) : mapHas (mapSet m k v) x = mapHas m x := by
  have h1 := mapHas_iff_mem_keys (mapSet m k v) x
  have h2 := mapHas_iff_mem_keys m x
  rw [keys_mapSet_of_has m k v h] at h1
  cases hb : mapHas m x
  · cases hc : mapHas (mapSet m k v) x
    · rfl
    · rw [hc] at h1
      rw [hb] at h2
      exact absurd (h2.2 (h1.1 rfl)) (by simp)
  · rw [hb] at h2
    exact h1.2 (h2.1 rfl)

/-! ## Attaching the local tracks -/

theorem attach_fold (existing : List (Option String)) (tracks : List Track) :
    ∀ acc : Peer,
      tracks.foldl
          (fun pc track =>
            if existing.contains (some track.id) then pc
            else { pc with senders := pc.senders ++ [{ track := some track }] })
          acc =
        { acc with
          senders := acc.senders ++
            (tracks.filter (fun t => !existing.contains (some t.id))).map
              (fun t => { track := some t }) } := by
  induction tracks with
  | nil => intro acc; simp
  | cons t rest ih =>
    intro acc
    rw [List.foldl_cons, ih]
    by_cases h : some t.id ∈ existing
    · simp [h]
    · simp [h]

theorem attachLocalTracks_covered (sc : Scope) (pc : Peer) :
    Covered sc (attachLocalTracks sc pc) := by
  intro ls hls t ht
  simp only [attachLocalTracks, hls, attach_fold]
  by_cases h : (pc.senders.map (fun sender => sender.track.map (fun t => t.id))).contains
      (some t.id) = true
  · rw [List.map_append, List.mem_append]
    left
    simpa using h
  · rw [List.map_append, List.mem_append]
    right
    rw [List.mem_map]
    refine ⟨{ track := some t }, ?_, rfl⟩
    rw [List.mem_map]
    refine ⟨t, ?_, rfl⟩
    rw [List.mem_filter]
    exact ⟨ht, by simpa using h⟩

theorem attachLocalTracks_of_covered (sc : Scope) (pc : Peer) (h : Covered sc pc) :
    attachLocalTracks sc pc = pc := by
  unfold attachLocalTracks
  cases hls : sc.localStream with
  | none => rfl
  | some ls =>
    simp only [attach_fold]
    have hnone : ls.tracks.filter
        (fun t => !(pc.senders.map
          (fun sender => sender.track.map (fun t => t.id))).contains (some t.id)) = [] := by
      rw [List.filter_eq_nil_iff]
      intro t ht
      have := h ls hls t ht
      simpa using this
    rw [hnone]
    simp

theorem covered_of_senders_eq (sc : Scope) (pc pc2 : Peer) (hs : pc2.senders = pc.senders)
    (h : Covered sc pc) : Covered sc pc2 := by
  intro ls hls t ht
  rw [hs]
  exact h ls hls t ht

/-! ## The three loops of the reconciliation effect -/

theorem createPeer_of_not_has (sc : Scope) (s : Room) (r : String)
    (h : mapHas s.peers r = false) :
    createPeer sc s r =
      { s with
        peers := s.peers ++ [(r, attachLocalTracks sc Peer.fresh)]
        effects := s.effects ++ [Effect.newPeer r] } := by
  unfold createPeer
  rw [h, mapSet_of_not_has _ _ _ h]
  simp

theorem createPeer_of_has (sc : Scope) (s : Room) (r : String)
    (h : mapHas s.peers r = true) : createPeer sc s r = s := by
  unfold createPeer
  rw [h]
  simp

theorem mapHas_append_singleton {V : Type} (m : List (String × V)) (k x : String) (v : V) :
    mapHas (m ++ [(k, v)]) x = true ↔ mapHas m x = true ∨ x = k := by
  rw [mapHas_iff_mem_keys, mapHas_iff_mem_keys]
  simp

theorem initiate_fold (sc : Scope) (ids : List String) :
    ∀ (s : Room) (l : List String), ∃ news : List String,
      ids.foldl (initiateStep sc) (s, l) =
          ({ s with
              peers := s.peers ++ news.map (fun id => (id, attachLocalTracks sc Peer.fresh))
              effects := s.effects ++ news.map Effect.newPeer },
            l ++ news) ∧
        news.Nodup ∧
        ∀ x, x ∈ news ↔
          (x ∈ ids ∧ mapHas s.peers x = false ∧ shouldInitiate sc.clientId x = true) := by
  induction ids with
  | nil =>
    intro s l
    exact ⟨[], by simp, List.nodup_nil, by simp⟩
  | cons id rest ih =>
    intro s l
    rw [List.foldl_cons]
    by_cases hc : mapHas s.peers id = false ∧ shouldInitiate sc.clientId id = true
    · have hstep : initiateStep sc (s, l) id = (createPeer sc s id, l ++ [id]) := by
        simp [initiateStep, hc.1, hc.2]
      rw [hstep, createPeer_of_not_has sc s id hc.1]
      obtain ⟨news, heq, hnd, hmem⟩ := ih
        { s with
          peers := s.peers ++ [(id, attachLocalTracks sc Peer.fresh)]
          effects := s.effects ++ [Effect.newPeer id] } (l ++ [id])
      refine ⟨id :: news, ?_, ?_, ?_⟩
      · rw [heq]
        simp
      · rw [List.nodup_cons]
        refine ⟨?_, hnd⟩
        intro hin
        have h2 := ((hmem id).1 hin).2.1
        have h3 : mapHas (s.peers ++ [(id, attachLocalTracks sc Peer.fresh)]) id = true :=
          (mapHas_append_singleton _ _ _ _).2 (Or.inr rfl)
        rw [h3] at h2
        exact absurd h2 (by simp)
      · intro x
        rw [List.mem_cons, hmem x, List.mem_cons]
        constructor
        · rintro (h | ⟨h1, h2, h3⟩)
          · subst h
            exact ⟨Or.inl rfl, hc.1, hc.2⟩
          · refine ⟨Or.inr h1, ?_, h3⟩
            cases hb : mapHas s.peers x
            · rfl
            · have := (mapHas_append_singleton s.peers id x
                (attachLocalTracks sc Peer.fresh)).2 (Or.inl hb)
              rw [this] at h2
              exact absurd h2 (by simp)
        · rintro ⟨h1, h2, h3⟩
          by_cases hx : x = id
          · exact Or.inl hx
          · right
            refine ⟨h1.resolve_left hx, ?_, h3⟩
            cases hb : mapHas (s.peers ++ [(id, attachLocalTracks sc Peer.fresh)]) x
            · rfl
            · rcases (mapHas_append_singleton _ _ _ _).1 hb with h4 | h4
              · rw [h4] at h2
                exact absurd h2 (by simp)
              · exact absurd h4 hx
    · have hstep : initiateStep sc (s, l) id = (s, l) := by
        unfold initiateStep
        rw [if_neg]
        intro h
        apply hc
        simpa using h
      rw [hstep]
      obtain ⟨news, heq, hnd, hmem⟩ := ih s l
      refine ⟨news, heq, hnd, ?_⟩
      intro x
      rw [hmem x, List.mem_cons]
      constructor
      · rintro ⟨h1, h2, h3⟩
        exact ⟨Or.inr h1, h2, h3⟩
      · rintro ⟨h1, h2, h3⟩
        refine ⟨?_, h2, h3⟩
        rcases h1 with h1 | h1
        · subst h1
          exact absurd ⟨h2, h3⟩ hc
        · exact h1

theorem close_fold (ids : List String) (entries : List (String × Peer)) :
    ∀ s : Room,
      entries.foldl (closeStep ids) s =
        { s with
          effects := s.effects ++ (closedKeys ids entries).map Effect.close
          peers := s.peers.filter (fun e => decide (e.1 ∉ closedKeys ids entries))
          remoteStreams :=
            s.remoteStreams.filter (fun item => decide (item.id ∉ closedKeys ids entries)) } := by
  induction entries with
  | nil =>
    intro s
    simp [closedKeys]
  | cons e rest ih =>
    intro s
    rw [List.foldl_cons, ih]
    by_cases hc : e.1 ∈ ids
    · have hk : closedKeys ids (e :: rest) = closedKeys ids rest := by
        simp [closedKeys, hc]
      have hstep : closeStep ids s e = s := by
        unfold closeStep
        rw [if_pos (by simpa using hc)]
      rw [hstep, hk]
    · have hk : closedKeys ids (e :: rest) = e.1 :: closedKeys ids rest := by
        simp [closedKeys, hc]
      have hstep : closeStep ids s e =
          { s with
            effects := s.effects ++ [Effect.close e.1]
            peers := mapDelete s.peers e.1
            remoteStreams := removeRemoteStream s.remoteStreams e.1 } := by
        unfold closeStep
        rw [if_neg (by simpa using hc)]
      rw [hstep, hk]
      simp only [mapDelete, removeRemoteStream, List.filter_filter,
        List.map_cons, List.append_assoc, List.singleton_append, List.mem_cons, not_or]
      congr 1
      · apply List.filter_congr
        intro x _
        by_cases h1 : x.id = e.1 <;> simp [h1]
      · apply List.filter_congr
        intro x _
        by_cases h1 : x.1 = e.1 <;> simp [h1]

theorem samePeers_refl (a : List (String × Peer)) : SamePeers a a :=
  ⟨rfl, fun e he => ⟨e, he, rfl, rfl⟩⟩

theorem samePeers_trans {a b c : List (String × Peer)} (h1 : SamePeers a b)
    (h2 : SamePeers b c) : SamePeers a c := by
  refine ⟨h2.1.trans h1.1, ?_⟩
  intro e he
  obtain ⟨e1, he1, hk1, hs1⟩ := h2.2 e he
  obtain ⟨e0, he0, hk0, hs0⟩ := h1.2 e1 he1
  exact ⟨e0, he0, hk0.trans hk1, hs1.trans hs0⟩

theorem samePeers_mapSet (m : List (String × Peer)) (k : String) (pc pc2 : Peer)
    (hg : mapGet m k = some pc) (hs : pc2.senders = pc.senders) :
    SamePeers m (mapSet m k pc2) := by
  refine ⟨keys_mapSet_of_has m k pc2 (mapHas_of_mapGet m k pc hg), ?_⟩
  intro e he
  rcases mem_mapSet m k pc2 e he with h | h
  · exact ⟨e, h, rfl, rfl⟩
  · refine ⟨(k, pc), mapGet_some_mem m k pc hg, ?_, ?_⟩
    · rw [h]
    · rw [h]
      exact hs

theorem samePeers_mapHas {a b : List (String × Peer)} (h : SamePeers a b) (x : String) :
    mapHas b x = mapHas a x := by
  have h1 := mapHas_iff_mem_keys b x
  have h2 := mapHas_iff_mem_keys a x
  rw [h.1] at h1
  cases hb : mapHas a x
  · cases hc : mapHas b x
    · rfl
    · rw [hc] at h1
      rw [hb] at h2
      exact absurd (h2.2 (h1.1 rfl)) (by simp)
  · rw [hb] at h2
    exact h1.2 (h2.1 rfl)

theorem sendOfferFinish_shape (P : Platform) (sc : Scope) (s : Room) (id : String) :
    ∃ (peers2 : List (String × Peer)) (added : List Effect),
      sendOfferFinish P sc s id = { s with peers := peers2, effects := s.effects ++ added } ∧
      SamePeers s.peers peers2 ∧
      (added = [] ∨ ∃ sdp, added = [Effect.send (Signal.offer sc.clientId id sdp)]) ∧
      (s.socketOpen = true → mapHas s.peers id = true → P.offersResolve →
        ∃ sdp, added = [Effect.send (Signal.offer sc.clientId id sdp)]) := by
  unfold sendOfferFinish
  cases hg : mapGet s.peers id with
  | none =>
    refine ⟨s.peers, [], by simp, samePeers_refl _, Or.inl rfl, ?_⟩
    intro _ hhas _
    simp [mapHas, hg] at hhas
  | some pc =>
    dsimp only
    cases ho : P.createOffer id pc with
    | none =>
      refine ⟨s.peers, [], by simp, samePeers_refl _, Or.inl rfl, ?_⟩
      intro _ _ hres
      have := hres.1 id pc
      rw [ho] at this
      exact absurd this (by simp)
    | some offer =>
      dsimp only
      by_cases hl : P.setLocalDescription id pc offer = true
      · rw [if_pos hl]
        have hsame : SamePeers s.peers
            (mapSet s.peers id { pc with localDescription := some offer }) :=
          samePeers_mapSet s.peers id pc _ hg rfl
        by_cases hso : s.socketOpen = true
        · refine ⟨_, [Effect.send (Signal.offer sc.clientId id offer)], ?_, hsame,
            Or.inr ⟨offer, rfl⟩, fun _ _ _ => ⟨offer, rfl⟩⟩
          simp [sendSignal, hso]
        · refine ⟨_, [], ?_, hsame, Or.inl rfl, fun h => absurd h hso⟩
          simp [sendSignal, hso]
      · rw [if_neg hl]
        refine ⟨s.peers, [], by simp, samePeers_refl _, Or.inl rfl, ?_⟩
        intro _ _ hres
        exact absurd (hres.2 id pc offer) hl

theorem finish_fold (P : Platform) (sc : Scope) (news : List String) :
    ∀ s : Room, ∃ (peers2 : List (String × Peer)) (added : List Effect),
      news.foldl (sendOfferFinish P sc) s =
        { s with peers := peers2, effects := s.effects ++ added } ∧
      SamePeers s.peers peers2 ∧
      createdPeers added = [] ∧ closedPeers added = [] ∧
      (sentOffers added).Sublist (news.map (fun x => (sc.clientId, x))) ∧
      (s.socketOpen = true → (∀ x ∈ news, mapHas s.peers x = true) → P.offersResolve →
        sentOffers added = news.map (fun x => (sc.clientId, x))) := by
  induction news with
  | nil =>
    intro s
    exact ⟨s.peers, [], by simp, samePeers_refl _, rfl, rfl, by simp [sentOffers],
      fun _ _ _ => rfl⟩
  | cons id rest ih =>
    intro s
    rw [List.foldl_cons]
    obtain ⟨p1, a1, heq1, hsame1, hshape1, hok1⟩ := sendOfferFinish_shape P sc s id
    rw [heq1]
    obtain ⟨p2, a2, heq2, hsame2, hcr2, hcl2, hsub2, hok2⟩ := ih
      { s with peers := p1, effects := s.effects ++ a1 }
    refine ⟨p2, a1 ++ a2, ?_, samePeers_trans hsame1 hsame2, ?_, ?_, ?_, ?_⟩
    · rw [heq2]
      simp
    · rcases hshape1 with h | ⟨sdp, h⟩ <;> simp [h, createdPeers] at hcr2 ⊢ <;> exact hcr2
    · rcases hshape1 with h | ⟨sdp, h⟩ <;> simp [h, closedPeers] at hcl2 ⊢ <;> exact hcl2
    · rcases hshape1 with h | ⟨sdp, h⟩
      · rw [h, List.nil_append, List.map_cons]
        exact List.Sublist.cons _ hsub2
      · have : sentOffers (a1 ++ a2) = (sc.clientId, id) :: sentOffers a2 := by
          simp [h, sentOffers]
        rw [this, List.map_cons]
        exact List.Sublist.cons₂ _ hsub2
    · intro hso hhas hres
      obtain ⟨sdp, h⟩ := hok1 hso (hhas id (List.mem_cons_self _ _)) hres
      have h3 := hok2 hso
        (fun x hx => by
          have h4 : mapHas p1 x = mapHas s.peers x := samePeers_mapHas hsame1 x
          show mapHas p1 x = true
          rw [h4]
          exact hhas x (List.mem_cons_of_mem _ hx))
        hres
      have : sentOffers (a1 ++ a2) = (sc.clientId, id) :: sentOffers a2 := by
        simp [h, sentOffers]
      rw [this, h3, List.map_cons]

theorem closedKeys_append (ids : List String) (a b : List (String × Peer)) :
    closedKeys ids (a ++ b) = closedKeys ids a ++ closedKeys ids b := by
  simp [closedKeys]

theorem closedKeys_attached (ids : List String) (sc : Scope) (a : List (String × Peer)) :
    closedKeys ids (a.map (fun e => (e.1, attachLocalTracks sc e.2))) = closedKeys ids a := by
  unfold closedKeys
  rw [List.map_map]
  rfl

theorem closedKeys_news (ids : List String) (pc : Peer) (news : List String)
    (h : ∀ x ∈ news, x ∈ ids) : closedKeys ids (news.map (fun id => (id, pc))) = [] := by
  simp only [closedKeys, List.map_map, List.filter_eq_nil_iff, List.mem_map]
  rintro k ⟨x, hx, rfl⟩
  simpa using h x hx

theorem mem_closedKeys (ids : List String) (a : List (String × Peer)) (x : String) :
    x ∈ closedKeys ids a ↔ mapHas a x = true ∧ x ∉ ids := by
  rw [mapHas_iff_mem_keys]
  simp [closedKeys]

theorem mapHas_attached (sc : Scope) (a : List (String × Peer)) (x : String) :
    mapHas (a.map (fun e => (e.1, attachLocalTracks sc e.2))) x = mapHas a x := by
  have h1 := mapHas_iff_mem_keys (a.map (fun e => (e.1, attachLocalTracks sc e.2))) x
  have h2 := mapHas_iff_mem_keys a x
  have hk : (a.map (fun e => (e.1, attachLocalTracks sc e.2))).map (fun e => e.1) =
      a.map (fun e => e.1) := by
    rw [List.map_map]
    rfl
  rw [hk] at h1
  cases hb : mapHas a x
  · cases hc : mapHas (a.map (fun e => (e.1, attachLocalTracks sc e.2))) x
    · rfl
    · rw [hc] at h1
      rw [hb] at h2
      exact absurd (h2.2 (h1.1 rfl)) (by simp)
  · rw [hb] at h2
    exact h1.2 (h2.1 rfl)

/-- The result of one reconciliation pass whose readiness guard is passed. -/
theorem reconcile_shape (P : Platform) (st : Room) (hm : st.localStream ≠ none)
    (hs : st.status = Status.connected) :
    ∃ (news : List String) (peers2 : List (String × Peer)) (added : List Effect),
      reconcile P st =
        { st with
          peers := peers2
          remoteStreams := st.remoteStreams.filter
            (fun item => decide (item.id ∉ closedKeys (desiredIds st) st.peers))
          effects := st.effects ++ (news.map Effect.newPeer ++
            ((closedKeys (desiredIds st) st.peers).map Effect.close ++ added)) } ∧
      news.Nodup ∧
      (∀ x, x ∈ news ↔
        (x ∈ desiredIds st ∧ mapHas st.peers x = false ∧
          shouldInitiate st.clientId x = true)) ∧
      SamePeers
        ((st.peers.map (fun e => (e.1, attachLocalTracks st.scope e.2)) ++
            news.map (fun id => (id, attachLocalTracks st.scope Peer.fresh))).filter
          (fun e => decide (e.1 ∈ desiredIds st)))
        peers2 ∧
      createdPeers added = [] ∧ closedPeers added = [] ∧
      (sentOffers added).Sublist (news.map (fun x => (st.clientId, x))) ∧
      (st.socketOpen = true → P.offersResolve →
        sentOffers added = news.map (fun x => (st.clientId, x))) := by
  unfold reconcile
  rw [if_neg (by simp [hm, hs])]
  dsimp only
  obtain ⟨news, heq, hnd, hmem⟩ := initiate_fold st.scope (desiredIds st)
    { st with peers := st.peers.map (fun e => (e.1, attachLocalTracks st.scope e.2)) } []
  rw [heq]
  dsimp only
  rw [close_fold]
  have hmem2 : ∀ x, x ∈ news ↔
      (x ∈ desiredIds st ∧ mapHas st.peers x = false ∧
        shouldInitiate st.clientId x = true) := by
    intro x
    rw [hmem x]
    dsimp only
    rw [mapHas_attached]
    rfl
  have hck : closedKeys (desiredIds st)
      (st.peers.map (fun e => (e.1, attachLocalTracks st.scope e.2)) ++
        news.map (fun id => (id, attachLocalTracks st.scope Peer.fresh))) =
      closedKeys (desiredIds st) st.peers := by
    rw [closedKeys_append, closedKeys_attached,
      closedKeys_news _ _ _ (fun x hx => ((hmem2 x).1 hx).1), List.append_nil]
  rw [hck]
  have hfilter :
      (st.peers.map (fun e => (e.1, attachLocalTracks st.scope e.2)) ++
          news.map (fun id => (id, attachLocalTracks st.scope Peer.fresh))).filter
        (fun e => decide (e.1 ∉ closedKeys (desiredIds st) st.peers)) =
      (st.peers.map (fun e => (e.1, attachLocalTracks st.scope e.2)) ++
          news.map (fun id => (id, attachLocalTracks st.scope Peer.fresh))).filter
        (fun e => decide (e.1 ∈ desiredIds st)) := by
    apply List.filter_congr
    intro e he
    rw [List.mem_append] at he
    have hiff : e.1 ∉ closedKeys (desiredIds st) st.peers ↔ e.1 ∈ desiredIds st := by
      rw [mem_closedKeys]
      rcases he with he | he
      · have hhas : mapHas st.peers e.1 = true := by
          rw [← mapHas_attached st.scope, mapHas_iff_mem_keys]
          exact List.mem_map_of_mem _ he
        simp [hhas]
      · rw [List.mem_map] at he
        obtain ⟨x, hx, rfl⟩ := he
        have := ((hmem2 x).1 hx).1
        simp [this]
    simp [hiff]
  obtain ⟨p2, added, heq2, hsame, hcr, hcl, hsub, hok⟩ := finish_fold P st.scope news
    { st with
      peers := (st.peers.map (fun e => (e.1, attachLocalTracks st.scope e.2)) ++
          news.map (fun id => (id, attachLocalTracks st.scope Peer.fresh))).filter
        (fun e => decide (e.1 ∉ closedKeys (desiredIds st) st.peers))
      effects := (st.effects ++ news.map Effect.newPeer) ++
        (closedKeys (desiredIds st) st.peers).map Effect.close
      remoteStreams := st.remoteStreams.filter
        (fun item => decide (item.id ∉ closedKeys (desiredIds st) st.peers)) }
  refine ⟨news, p2, added, ?_, hnd, hmem2, ?_, hcr, hcl, hsub, ?_⟩
  · simp only [List.nil_append]
    rw [heq2]
    simp
  · rw [← hfilter]
    exact hsame
  · intro hso hres
    apply hok hso _ hres
    intro x hx
    dsimp only
    rw [hfilter, mapHas_iff_mem_keys, List.mem_map]
    refine ⟨(x, attachLocalTracks st.scope Peer.fresh), ?_, rfl⟩
    rw [List.mem_filter]
    refine ⟨List.mem_append_right _ (List.mem_map_of_mem _ hx), ?_⟩
    simpa using ((hmem2 x).1 hx).1

/-! ## What one reconciliation pass does -/

theorem mem_desiredIds (st : Room) (x : String) :
    x ∈ desiredIds st ↔
      (some x ∈ st.participants.map (fun p => p.id) ∧ x ≠ "" ∧ x ≠ st.clientId ∧
        st.clientId ≠ "") := by
  unfold desiredIds
  rw [List.mem_filterMap]
  constructor
  · rintro ⟨a, ha, hx⟩
    cases a with
    | none => simp at hx
    | some i =>
      dsimp only at hx
      by_cases hc : i ≠ "" ∧ i ≠ st.clientId ∧ st.clientId ≠ ""
      · rw [if_pos hc] at hx
        have : i = x := Option.some.inj hx
        subst this
        exact ⟨ha, hc⟩
      · rw [if_neg hc] at hx
        simp at hx
  · rintro ⟨h1, h2⟩
    refine ⟨some x, h1, ?_⟩
    dsimp only
    rw [if_pos h2]

theorem shouldInitiate_ne_empty (c x : String) (h : shouldInitiate c x = true) : x ≠ "" := by
  intro hx
  subst hx
  unfold shouldInitiate jsLt at h
  have h2 : codeUnits "" = [] := rfl
  rw [h2] at h
  cases hc : codeUnits c <;> simp [hc, ltUnits] at h

theorem count_map_pair (c f y : String) (news : List String) (hnd : news.Nodup) :
    (news.map (fun x => (c, x))).count (f, y) = if f = c ∧ y ∈ news then 1 else 0 := by
  induction news with
  | nil => simp
  | cons z rest ih =>
    rw [List.nodup_cons] at hnd
    rw [List.map_cons, List.count_cons, ih hnd.2]
    by_cases hf : f = c
    · by_cases hz : z = y
      · subst hz
        subst hf
        simp [hnd.1]
      · have hz2 : ¬ y = z := fun e => hz e.symm
        simp [hf, hz, hz2]
    · have hf2 : ¬ c = f := fun e => hf e.symm
      simp [hf, hf2]

theorem createdPeers_append (a b : List Effect) :
    createdPeers (a ++ b) = createdPeers a ++ createdPeers b := by
  simp [createdPeers]

theorem closedPeers_append (a b : List Effect) :
    closedPeers (a ++ b) = closedPeers a ++ closedPeers b := by
  simp [closedPeers]

theorem sentOffers_append (a b : List Effect) :
    sentOffers (a ++ b) = sentOffers a ++ sentOffers b := by
  simp [sentOffers]

theorem createdPeers_newPeer (news : List String) :
    createdPeers (news.map Effect.newPeer) = news := by
  induction news with
  | nil => rfl
  | cons x rest ih =>
    simp only [createdPeers, List.map_cons, List.filterMap_cons] at ih ⊢
    rw [ih]

theorem closedPeers_newPeer (news : List String) :
    closedPeers (news.map Effect.newPeer) = [] := by
  induction news with
  | nil => rfl
  | cons x rest ih =>
    simp only [closedPeers, List.map_cons, List.filterMap_cons] at ih ⊢
    rw [ih]

theorem sentOffers_newPeer (news : List String) :
    sentOffers (news.map Effect.newPeer) = [] := by
  induction news with
  | nil => rfl
  | cons x rest ih =>
    simp only [sentOffers, List.map_cons, List.filterMap_cons] at ih ⊢
    rw [ih]

theorem createdPeers_close (ks : List String) :
    createdPeers (ks.map Effect.close) = [] := by
  induction ks with
  | nil => rfl
  | cons x rest ih =>
    simp only [createdPeers, List.map_cons, List.filterMap_cons] at ih ⊢
    rw [ih]

theorem closedPeers_close (ks : List String) :
    closedPeers (ks.map Effect.close) = ks := by
  induction ks with
  | nil => rfl
  | cons x rest ih =>
    simp only [closedPeers, List.map_cons, List.filterMap_cons] at ih ⊢
    rw [ih]

theorem sentOffers_close (ks : List String) :
    sentOffers (ks.map Effect.close) = [] := by
  induction ks with
  | nil => rfl
  | cons x rest ih =>
    simp only [sentOffers, List.map_cons, List.filterMap_cons] at ih ⊢
    rw [ih]

/-- Claim C3. With local media ready, status `connected` and the local id
known, one reconciliation pass creates one connection for each registry id
that differs from self, has no connection and is greater than self, and for
no other id; it sends at most one offer to such an id and none to any other
id, and when the socket is open and offer creation resolves it sends exactly
one offer, from self, to each such id. -/
theorem reconcile_initiates (P : Platform) (st : Room) (hm : st.localStream ≠ none)
    (hs : st.status = Status.connected) (hc : st.clientId ≠ "") (f x : String) :
    (createdPeers (reconcile P st).effects).count x =
        (createdPeers st.effects).count x +
          (if some x ∈ st.participants.map (fun p => p.id) ∧
              x ≠ st.clientId ∧ mapHas st.peers x = false ∧
              shouldInitiate st.clientId x = true then 1 else 0) ∧
    (some x ∈ st.participants.map (fun p => p.id) → x ≠ st.clientId →
      shouldInitiate st.clientId x = true → mapHas (reconcile P st).peers x = true) ∧
    (sentOffers (reconcile P st).effects).count (f, x) ≤
        (sentOffers st.effects).count (f, x) +
          (if f = st.clientId ∧ some x ∈ st.participants.map (fun p => p.id) ∧
              x ≠ st.clientId ∧ mapHas st.peers x = false ∧
              shouldInitiate st.clientId x = true then 1 else 0) ∧
    (st.socketOpen = true → P.offersResolve →
      (sentOffers (reconcile P st).effects).count (f, x) =
        (sentOffers st.effects).count (f, x) +
          (if f = st.clientId ∧ some x ∈ st.participants.map (fun p => p.id) ∧
              x ≠ st.clientId ∧ mapHas st.peers x = false ∧
              shouldInitiate st.clientId x = true then 1 else 0)) := by
  obtain ⟨news, p2, added, heq, hnd, hmem, hsame, hcr, hcl, hsub, hok⟩ :=
    reconcile_shape P st hm hs
  have hq : x ∈ news ↔ (some x ∈ st.participants.map (fun p => p.id) ∧
      x ≠ st.clientId ∧ mapHas st.peers x = false ∧
      shouldInitiate st.clientId x = true) := by
    rw [hmem x, mem_desiredIds]
    constructor
    · rintro ⟨⟨h1, _, h3, _⟩, h5, h6⟩
      exact ⟨h1, h3, h5, h6⟩
    · rintro ⟨h1, h3, h5, h6⟩
      exact ⟨⟨h1, shouldInitiate_ne_empty _ _ h6, h3, hc⟩, h5, h6⟩
  rw [heq]
  dsimp only
  refine ⟨?_, ?_, ?_, ?_⟩
  · rw [createdPeers_append, createdPeers_append, createdPeers_append, createdPeers_newPeer,
      createdPeers_close, hcr, List.nil_append, List.append_nil, List.count_append,
      List.count_eq_of_nodup hnd]
    simp only [hq]
  · intro h1 h3 h6
    rw [samePeers_mapHas hsame x]
    have hd : x ∈ desiredIds st :=
      (mem_desiredIds st x).2 ⟨h1, shouldInitiate_ne_empty _ _ h6, h3, hc⟩
    rw [mapHas_iff_mem_keys, List.mem_map]
    cases hb : mapHas st.peers x
    · have hx : x ∈ news := (hmem x).2 ⟨hd, hb, h6⟩
      refine ⟨(x, attachLocalTracks st.scope Peer.fresh), ?_, rfl⟩
      rw [List.mem_filter]
      exact ⟨List.mem_append_right _ (List.mem_map_of_mem _ hx), by simpa using hd⟩
    · rw [mapHas_iff_mem_keys, List.mem_map] at hb
      obtain ⟨e, he, hk⟩ := hb
      refine ⟨(e.1, attachLocalTracks st.scope e.2), ?_, hk⟩
      rw [List.mem_filter]
      refine ⟨List.mem_append_left _ (List.mem_map_of_mem _ he), ?_⟩
      dsimp only at hk ⊢
      rw [hk]
      simpa using hd
  · rw [sentOffers_append, sentOffers_append, sentOffers_append, sentOffers_newPeer,
      sentOffers_close, List.nil_append, List.nil_append, List.count_append]
    have h1 := hsub.count_le (f, x)
    rw [count_map_pair _ _ _ _ hnd] at h1
    simp only [hq] at h1
    omega
  · intro hso hres
    rw [sentOffers_append, sentOffers_append, sentOffers_append, sentOffers_newPeer,
      sentOffers_close, hok hso hres, List.nil_append, List.nil_append, List.count_append,
      count_map_pair _ _ _ _ hnd]
    simp only [hq]

theorem reconcile_initiates_witness :
    (createdPeers (reconcile Platform.resolving (readyRoom "a3" ["a3", "b7"])).effects).count
        "b7" = 1 ∧
    mapHas (reconcile Platform.resolving (readyRoom "a3" ["a3", "b7"])).peers "b7" = true ∧
    (sentOffers (reconcile Platform.resolving (readyRoom "a3" ["a3", "b7"])).effects).count
        ("a3", "b7") = 1 := by
  have h := reconcile_initiates Platform.resolving (readyRoom "a3" ["a3", "b7"])
    (by decide) rfl (by decide) "a3" "b7"
  refine ⟨?_, h.2.1 (by decide) (by decide) (by decide), ?_⟩
  · rw [h.1]
    decide
  · rw [h.2.2.2 rfl ⟨fun _ _ => rfl, fun _ _ _ => rfl⟩]
    decide

theorem mapHas_filtered_desired (st : Room) (news : List String) (x : String)
    (h : mapHas
      ((st.peers.map (fun e => (e.1, attachLocalTracks st.scope e.2)) ++
          news.map (fun id => (id, attachLocalTracks st.scope Peer.fresh))).filter
        (fun e => decide (e.1 ∈ desiredIds st))) x = true) :
    x ∈ desiredIds st := by
  rw [mapHas_iff_mem_keys, List.mem_map] at h
  obtain ⟨e, he, hk⟩ := h
  rw [List.mem_filter] at he
  rw [← hk]
  simpa using he.2

theorem mapHas_filtered_of_has (st : Room) (news : List String) (x : String)
    (hd : x ∈ desiredIds st) (hb : mapHas st.peers x = true) :
    mapHas
      ((st.peers.map (fun e => (e.1, attachLocalTracks st.scope e.2)) ++
          news.map (fun id => (id, attachLocalTracks st.scope Peer.fresh))).filter
        (fun e => decide (e.1 ∈ desiredIds st))) x = true := by
  rw [mapHas_iff_mem_keys, List.mem_map] at hb ⊢
  obtain ⟨e, he, hk⟩ := hb
  refine ⟨(e.1, attachLocalTracks st.scope e.2), ?_, hk⟩
  rw [List.mem_filter]
  refine ⟨List.mem_append_left _ (List.mem_map_of_mem _ he), ?_⟩
  dsimp only at hk ⊢
  rw [hk]
  simpa using hd

/-- Claim C4, as the code behaves: while the local client id is still empty
the pass closes the connection of an id that is in the registry and differs
from the local id. -/
theorem reconcile_closes_all_before_welcome :
    some "b7" ∈
      ({ readyRoom "" ["b7"] with peers := [("b7", Peer.fresh)] } : Room).participants.map
        (fun p => p.id) ∧
    "b7" ≠ ({ readyRoom "" ["b7"] with peers := [("b7", Peer.fresh)] } : Room).clientId ∧
    (reconcile Platform.resolving
      { readyRoom "" ["b7"] with peers := [("b7", Peer.fresh)] }).peers = [] ∧
    closedPeers (reconcile Platform.resolving
      { readyRoom "" ["b7"] with peers := [("b7", Peer.fresh)] }).effects = ["b7"] := by
  decide

/-- Claim C4, amended: with local media ready, status `connected` and the
local id known, after one reconciliation pass every key of the connection map
is a non-empty registry id that differs from self; a connection whose id is
not such an id is closed and removed together with its remote-stream record;
and a connection whose id is such an id is neither closed nor removed, and
its remote-stream record stays. -/
theorem reconcile_closes_undesired (P : Platform) (st : Room) (hm : st.localStream ≠ none)
    (hs : st.status = Status.connected) (hc : st.clientId ≠ "") (x : String) :
    (mapHas (reconcile P st).peers x = true →
      some x ∈ st.participants.map (fun p => p.id) ∧ x ≠ "" ∧ x ≠ st.clientId) ∧
    (mapHas st.peers x = true →
      ¬ (some x ∈ st.participants.map (fun p => p.id) ∧ x ≠ "" ∧ x ≠ st.clientId) →
      mapHas (reconcile P st).peers x = false ∧
      (∀ r ∈ (reconcile P st).remoteStreams, r.id ≠ x) ∧
      (closedPeers (reconcile P st).effects).count x =
        (closedPeers st.effects).count x + (st.peers.map (fun e => e.1)).count x) ∧
    (some x ∈ st.participants.map (fun p => p.id) ∧ x ≠ "" ∧ x ≠ st.clientId →
      (mapHas st.peers x = true → mapHas (reconcile P st).peers x = true) ∧
      (closedPeers (reconcile P st).effects).count x = (closedPeers st.effects).count x ∧
      (reconcile P st).remoteStreams.filter (fun r => decide (r.id = x)) =
        st.remoteStreams.filter (fun r => decide (r.id = x))) := by
  obtain ⟨news, p2, added, heq, hnd, hmem, hsame, hcr, hcl, hsub, hok⟩ :=
    reconcile_shape P st hm hs
  have hd : x ∈ desiredIds st ↔
      (some x ∈ st.participants.map (fun p => p.id) ∧ x ≠ "" ∧ x ≠ st.clientId) := by
    rw [mem_desiredIds]
    constructor
    · rintro ⟨h1, h2, h3, _⟩
      exact ⟨h1, h2, h3⟩
    · rintro ⟨h1, h2, h3⟩
      exact ⟨h1, h2, h3, hc⟩
  have hclosed : closedPeers (reconcile P st).effects =
      closedPeers st.effects ++ closedKeys (desiredIds st) st.peers := by
    rw [heq]
    dsimp only
    rw [closedPeers_append, closedPeers_append, closedPeers_append, closedPeers_newPeer,
      closedPeers_close, hcl, List.nil_append, List.append_nil]
  rw [hclosed, heq]
  dsimp only
  refine ⟨?_, ?_, ?_⟩
  · intro h
    rw [samePeers_mapHas hsame x] at h
    exact hd.1 (mapHas_filtered_desired st news x h)
  · intro hb hnd2
    have hx : x ∉ desiredIds st := fun h => hnd2 (hd.1 h)
    refine ⟨?_, ?_, ?_⟩
    · rw [samePeers_mapHas hsame x]
      cases hf : mapHas
        ((st.peers.map (fun e => (e.1, attachLocalTracks st.scope e.2)) ++
            news.map (fun id => (id, attachLocalTracks st.scope Peer.fresh))).filter
          (fun e => decide (e.1 ∈ desiredIds st))) x
      · rfl
      · exact absurd (mapHas_filtered_desired st news x hf) hx
    · intro r hr
      rw [List.mem_filter] at hr
      intro hrx
      have h2 : r.id ∉ closedKeys (desiredIds st) st.peers := by simpa using hr.2
      apply h2
      rw [hrx, mem_closedKeys]
      exact ⟨hb, hx⟩
    · rw [List.count_append]
      unfold closedKeys
      rw [List.count_filter (by simpa using hx)]
  · intro hdx
    have hx : x ∈ desiredIds st := hd.2 hdx
    have hnc : x ∉ closedKeys (desiredIds st) st.peers := by
      rw [mem_closedKeys]
      exact fun h => h.2 hx
    refine ⟨?_, ?_, ?_⟩
    · intro hb
      rw [samePeers_mapHas hsame x]
      exact mapHas_filtered_of_has st news x hx hb
    · rw [List.count_append, List.count_eq_zero.2 hnc]
      rfl
    · rw [List.filter_filter]
      apply List.filter_congr
      intro r _
      by_cases hr : r.id = x
      · simp [hr, hnc]
      · simp [hr]

theorem reconcile_closes_undesired_witness :
    mapHas (reconcile Platform.resolving
      { readyRoom "a3" ["a3", "b7"] with
        peers := [("b7", Peer.fresh), ("c1", Peer.fresh)] }).peers "c1" = false ∧
    mapHas (reconcile Platform.resolving
      { readyRoom "a3" ["a3", "b7"] with
        peers := [("b7", Peer.fresh), ("c1", Peer.fresh)] }).peers "b7" = true := by
  have h1 := reconcile_closes_undesired Platform.resolving
    { readyRoom "a3" ["a3", "b7"] with peers := [("b7", Peer.fresh), ("c1", Peer.fresh)] }
    (by decide) rfl (by decide) "c1"
  have h2 := reconcile_closes_undesired Platform.resolving
    { readyRoom "a3" ["a3", "b7"] with peers := [("b7", Peer.fresh), ("c1", Peer.fresh)] }
    (by decide) rfl (by decide) "b7"
  exact ⟨(h1.2.1 (by decide) (by decide)).1, (h2.2.2 (by decide)).1 (by decide)⟩

/-! ## A second pass changes nothing -/

theorem reconcile_noop (P : Platform) (s : Room)
    (h1 : ∀ e ∈ s.peers, e.1 ∈ desiredIds s ∧ Covered s.scope e.2)
    (h2 : ∀ x ∈ desiredIds s, shouldInitiate s.clientId x = true → mapHas s.peers x = true) :
    reconcile P s = s := by
  unfold reconcile
  split
  · rfl
  · dsimp only
    have hmap : s.peers.map (fun e => (e.1, attachLocalTracks s.scope e.2)) = s.peers := by
      have : ∀ e ∈ s.peers, (fun e : String × Peer => (e.1, attachLocalTracks s.scope e.2)) e
          = id e := by
        intro e he
        simp only [id]
        rw [attachLocalTracks_of_covered _ _ (h1 e he).2]
      rw [List.map_congr_left this, List.map_id]
    rw [hmap]
    obtain ⟨news, heq, _, hmem⟩ := initiate_fold s.scope (desiredIds s) s []
    have hnil : news = [] := by
      rw [List.eq_nil_iff_forall_not_mem]
      intro x hx
      obtain ⟨hx1, hx2, hx3⟩ := (hmem x).1 hx
      rw [h2 x hx1 hx3] at hx2
      exact absurd hx2 (by simp)
    subst hnil
    have heq2 : List.foldl (initiateStep s.scope) (s, []) (desiredIds s) = (s, []) := by
      rw [heq]
      simp
    have hs : ({ s with peers := s.peers } : Room) = s := rfl
    rw [hs, heq2]
    dsimp only
    rw [close_fold]
    have hck : closedKeys (desiredIds s) s.peers = [] := by
      unfold closedKeys
      rw [List.filter_eq_nil_iff]
      intro k hk
      rw [List.mem_map] at hk
      obtain ⟨e, he, rfl⟩ := hk
      simpa using (h1 e he).1
    rw [hck]
    simp

/-- Claim C5. Reconciliation is idempotent: a second pass run on the state the
first pass produced, whatever the platform does, returns that state unchanged;
the connection map, the remote-stream list and the trace of effects are as
the first pass left them, so the second pass sends no offer and creates and
closes no connection. -/
theorem reconcile_idempotent (P P2 : Platform) (st : Room) :
    reconcile P2 (reconcile P st) = reconcile P st ∧
    (reconcile P2 (reconcile P st)).peers = (reconcile P st).peers ∧
    (reconcile P2 (reconcile P st)).remoteStreams = (reconcile P st).remoteStreams ∧
    (reconcile P2 (reconcile P st)).effects = (reconcile P st).effects := by
  have key : reconcile P2 (reconcile P st) = reconcile P st := by
    by_cases hg : st.localStream = none ∨ st.status ≠ Status.connected
    · have h : ∀ Q : Platform, reconcile Q st = st := by
        intro Q
        unfold reconcile
        rw [if_pos hg]
      rw [h P, h P2]
    · have hm : st.localStream ≠ none := fun h => hg (Or.inl h)
      have hs : st.status = Status.connected := by
        by_contra h
        exact hg (Or.inr h)
      obtain ⟨news, p2, added, heq, hnd, hmem, hsame, _, _, _, _⟩ :=
        reconcile_shape P st hm hs
      rw [heq]
      apply reconcile_noop
      · intro e he
        obtain ⟨e0, he0, hk, hsend⟩ := hsame.2 e he
        rw [List.mem_filter] at he0
        refine ⟨?_, ?_⟩
        · show e.1 ∈ desiredIds st
          rw [← hk]
          simpa using he0.2
        · show Covered st.scope e.2
          apply covered_of_senders_eq st.scope e0.2 e.2 hsend
          rcases List.mem_append.1 he0.1 with h | h
          · rw [List.mem_map] at h
            obtain ⟨a, _, rfl⟩ := h
            exact attachLocalTracks_covered _ _
          · rw [List.mem_map] at h
            obtain ⟨a, _, rfl⟩ := h
            exact attachLocalTracks_covered _ _
      · intro x hx hinit
        have hx2 : x ∈ desiredIds st := hx
        have hinit2 : shouldInitiate st.clientId x = true := hinit
        show mapHas p2 x = true
        rw [samePeers_mapHas hsame x]
        cases hb : mapHas st.peers x
        · have hxn : x ∈ news := (hmem x).2 ⟨hx2, hb, hinit2⟩
          rw [mapHas_iff_mem_keys, List.mem_map]
          refine ⟨(x, attachLocalTracks st.scope Peer.fresh), ?_, rfl⟩
          rw [List.mem_filter]
          exact ⟨List.mem_append_right _ (List.mem_map_of_mem _ hxn), by simpa using hx2⟩
        · exact mapHas_filtered_of_has st news x hx2 hb
  rw [key]
  exact ⟨rfl, rfl, rfl, rfl⟩

/-! ## Queueing offers and replaying them -/

theorem onmessage_offerFrame_queued (P : Platform) (sc : Scope) (now : Nat) (st : Room)
    (f : String) (sdp : Sdp) (hm : sc.localStream = none) (hf : f ≠ "") :
    onmessage P sc now st (offerFrame f none sdp) =
      { st with pendingOffers := mapSet st.pendingOffers f sdp } := by
  unfold offerFrame
  rw [onmessage_webrtc P sc now st _ rfl]
  dsimp only [Payload.blank]
  rw [if_neg hf, if_neg (by simp [truthy])]
  simp only [webrtcBranch, hm]

theorem receiveOffers_eq (P : Platform) (sc : Scope) (now : Nat)
    (offers : List (String × Sdp)) (hm : sc.localStream = none)
    (hne : ∀ o ∈ offers, o.1 ≠ "") :
    ∀ st : Room, receiveOffers P sc now st offers =
      { st with
        pendingOffers := offers.foldl (fun m o => mapSet m o.1 o.2) st.pendingOffers } := by
  induction offers with
  | nil => intro st; rfl
  | cons o rest ih =>
    intro st
    unfold receiveOffers
    rw [List.foldl_cons, onmessage_offerFrame_queued P sc now st o.1 o.2 hm
      (hne o (List.mem_cons_self _ _))]
    have := ih (fun o2 ho2 => hne o2 (List.mem_cons_of_mem _ ho2))
      { st with pendingOffers := mapSet st.pendingOffers o.1 o.2 }
    unfold receiveOffers at this
    rw [this]
    rfl

theorem mapGet_mapSet {V : Type} (m : List (String × V)) (k g : String) (v : V) :
    mapGet (mapSet m k v) g = if k = g then some v else mapGet m g := by
  by_cases h : k = g
  · subst h
    rw [if_pos rfl, mapGet_mapSet_self]
  · rw [if_neg h, mapGet_mapSet_ne m k g v (fun e => h e.symm)]

theorem mapGet_fold_mapSet (offers : List (String × Sdp)) (f : String) :
    ∀ m : List (String × Sdp),
      mapGet (offers.foldl (fun m o => mapSet m o.1 o.2) m) f =
        match latestOffer offers f with
        | some s => some s
        | none => mapGet m f := by
  induction offers with
  | nil => intro m; rfl
  | cons o rest ih =>
    intro m
    rw [List.foldl_cons, ih, mapGet_mapSet]
    simp only [latestOffer]
    cases latestOffer rest f with
    | some s => rfl
    | none =>
      dsimp only
      split <;> rfl

theorem keys_nodup_mapSet {V : Type} (m : List (String × V)) (k : String) (v : V)
    (h : (m.map (fun e => e.1)).Nodup) : ((mapSet m k v).map (fun e => e.1)).Nodup := by
  cases hb : mapHas m k
  · rw [mapSet_of_not_has m k v hb, List.map_append, List.nodup_append]
    refine ⟨h, by simp, ?_⟩
    intro a ha hb2
    have : a = k := by simpa using hb2
    subst this
    rw [mapHas_false_iff] at hb
    exact hb ha
  · rw [keys_mapSet_of_has m k v hb]
    exact h

theorem keys_nodup_fold_mapSet (offers : List (String × Sdp)) :
    ∀ m : List (String × Sdp), (m.map (fun e => e.1)).Nodup →
      ((offers.foldl (fun m o => mapSet m o.1 o.2) m).map (fun e => e.1)).Nodup := by
  induction offers with
  | nil => intro m h; exact h
  | cons o rest ih =>
    intro m h
    rw [List.foldl_cons]
    exact ih _ (keys_nodup_mapSet m o.1 o.2 h)

theorem mapGet_of_mem_nodup {V : Type} (m : List (String × V)) (k : String) (v : V)
    (hnd : (m.map (fun e => e.1)).Nodup) (h : (k, v) ∈ m) : mapGet m k = some v := by
  induction m with
  | nil => simp at h
  | cons e rest ih =>
    obtain ⟨k2, w⟩ := e
    rw [List.map_cons, List.nodup_cons] at hnd
    rcases List.mem_cons.1 h with h1 | h1
    · have hk : k2 = k := (Prod.mk.inj h1).1.symm
      have hw : w = v := (Prod.mk.inj h1).2.symm
      simp [mapGet, hk, hw]
    · have hk : ¬ k2 = k := by
        intro e
        apply hnd.1
        rw [List.mem_map]
        exact ⟨(k, v), h1, e.symm⟩
      simp only [mapGet, hk, if_false]
      exact ih hnd.2 h1

theorem nodup_of_keys_nodup {V : Type} (m : List (String × V))
    (hnd : (m.map (fun e => e.1)).Nodup) : m.Nodup :=
  List.Nodup.of_map _ hnd

theorem count_entry_of_nodup (m : List (String × Sdp)) (a : String × Sdp) (hnd : m.Nodup) :
    m.count a = if a ∈ m then 1 else 0 := by
  induction m with
  | nil => simp
  | cons e rest ih =>
    rw [List.nodup_cons] at hnd
    rw [List.count_cons, ih hnd.2]
    by_cases h : e = a
    · subst h
      simp [hnd.1]
    · have h2 : ¬ a = e := fun e2 => h e2.symm
      simp [h, h2]

theorem count_entry_of_keys_nodup (m : List (String × Sdp)) (k : String) (v : Sdp)
    (hnd : (m.map (fun e => e.1)).Nodup) :
    m.count (k, v) = if mapGet m k = some v then 1 else 0 := by
  rw [count_entry_of_nodup m (k, v) (nodup_of_keys_nodup m hnd)]
  by_cases h : (k, v) ∈ m
  · rw [if_pos h, if_pos (mapGet_of_mem_nodup m k v hnd h)]
  · rw [if_neg h, if_neg]
    intro hg
    exact h (mapGet_some_mem m k v hg)

theorem handledOffers_append (a b : List Effect) :
    handledOffers (a ++ b) = handledOffers a ++ handledOffers b := by
  simp [handledOffers]

theorem sentAnswers_append (a b : List Effect) :
    sentAnswers (a ++ b) = sentAnswers a ++ sentAnswers b := by
  simp [sentAnswers]

theorem flushStep_shape (sc : Scope) (s : Room) (e : String × Sdp) :
    ∃ (peers2 : List (String × Peer)) (added : List Effect),
      flushStep sc s e =
        { s with
          peers := peers2
          effects := s.effects ++ added
          pendingOffers := mapDelete s.pendingOffers e.1 } ∧
      handledOffers added = [e] ∧ sentAnswers added = [] ∧
      mapHas peers2 e.1 = true ∧ (∀ x, mapHas s.peers x = true → mapHas peers2 x = true) := by
  unfold flushStep handleOfferStart
  cases hb : mapHas s.peers e.1
  · rw [createPeer_of_not_has sc s e.1 hb]
    refine ⟨s.peers ++ [(e.1, attachLocalTracks sc Peer.fresh)],
      [Effect.newPeer e.1, Effect.setRemoteDescription e.1 e.2], by simp, rfl, rfl, ?_, ?_⟩
    · exact (mapHas_append_singleton _ _ _ _).2 (Or.inr rfl)
    · intro x hx
      exact (mapHas_append_singleton _ _ _ _).2 (Or.inl hx)
  · rw [createPeer_of_has sc s e.1 hb]
    exact ⟨s.peers, [Effect.setRemoteDescription e.1 e.2], rfl, rfl, rfl, hb, fun _ h => h⟩

theorem flushStart_fold (sc : Scope) (pending : List (String × Sdp)) :
    ∀ s : Room, ∃ (peers2 : List (String × Peer)) (added : List Effect),
      pending.foldl (flushStep sc) s =
        { s with
          peers := peers2
          effects := s.effects ++ added
          pendingOffers := s.pendingOffers.filter
            (fun q => decide (q.1 ∉ pending.map (fun e => e.1))) } ∧
      handledOffers added = pending ∧ sentAnswers added = [] ∧
      (∀ e ∈ pending, mapHas peers2 e.1 = true) ∧
      (∀ x, mapHas s.peers x = true → mapHas peers2 x = true) := by
  induction pending with
  | nil =>
    intro s
    exact ⟨s.peers, [], by simp, rfl, rfl, by simp, fun _ h => h⟩
  | cons e rest ih =>
    intro s
    rw [List.foldl_cons]
    obtain ⟨p1, a1, heq1, hh1, hs1, hhas1, hmono1⟩ := flushStep_shape sc s e
    rw [heq1]
    obtain ⟨p2, a2, heq2, hh2, hs2, hhas2, hmono2⟩ := ih
      { s with
        peers := p1
        effects := s.effects ++ a1
        pendingOffers := mapDelete s.pendingOffers e.1 }
    refine ⟨p2, a1 ++ a2, ?_, ?_, ?_, ?_, ?_⟩
    · rw [heq2]
      simp only [mapDelete, List.filter_filter, List.append_assoc, List.map_cons,
        List.mem_cons, not_or]
      congr 1
      apply List.filter_congr
      intro q _
      by_cases h1 : q.1 = e.1 <;> simp [h1]
    · rw [handledOffers_append, hh1, hh2]
      rfl
    · rw [sentAnswers_append, hs1, hs2]
      rfl
    · intro e2 he2
      rcases List.mem_cons.1 he2 with h | h
      · rw [h]
        exact hmono2 _ hhas1
      · exact hhas2 e2 h
    · intro x hx
      exact hmono2 x (hmono1 x hx)

theorem handleOfferFinish_shape (P : Platform) (sc : Scope) (s : Room) (f : String)
    (sdp : Sdp) :
    ∃ (peers2 : List (String × Peer)) (added : List Effect),
      handleOfferFinish P sc s f sdp = { s with peers := peers2, effects := s.effects ++ added } ∧
      SamePeers s.peers peers2 ∧
      (added = [] ∨ ∃ a, added = [Effect.send (Signal.answer sc.clientId f a)]) ∧
      (s.socketOpen = true → mapHas s.peers f = true → P.answersResolve →
        ∃ a, added = [Effect.send (Signal.answer sc.clientId f a)]) := by
  unfold handleOfferFinish
  cases hg : mapGet s.peers f with
  | none =>
    refine ⟨s.peers, [], by simp, samePeers_refl _, Or.inl rfl, ?_⟩
    intro _ hhas _
    simp [mapHas, hg] at hhas
  | some pc =>
    dsimp only
    by_cases hr : P.setRemoteDescription f pc sdp = true
    · rw [if_pos hr]
      have hsame1 : SamePeers s.peers
          (mapSet s.peers f { pc with remoteDescription := some sdp }) :=
        samePeers_mapSet s.peers f pc _ hg rfl
      cases ha : P.createAnswer f { pc with remoteDescription := some sdp } with
      | none =>
        refine ⟨_, [], by simp, hsame1, Or.inl rfl, ?_⟩
        intro _ _ hres
        have := hres.2.1 f { pc with remoteDescription := some sdp }
        rw [ha] at this
        exact absurd this (by simp)
      | some answer =>
        dsimp only
        by_cases hl : P.setLocalDescription f { pc with remoteDescription := some sdp }
            answer = true
        · rw [if_pos hl]
          have hsame2 : SamePeers s.peers
              (mapSet (mapSet s.peers f { pc with remoteDescription := some sdp }) f
                { pc with remoteDescription := some sdp, localDescription := some answer }) :=
            samePeers_trans hsame1
              (samePeers_mapSet _ f { pc with remoteDescription := some sdp } _
                (mapGet_mapSet_self _ _ _) rfl)
          by_cases hso : s.socketOpen = true
          · refine ⟨_, [Effect.send (Signal.answer sc.clientId f answer)], ?_, hsame2,
              Or.inr ⟨answer, rfl⟩, fun _ _ _ => ⟨answer, rfl⟩⟩
            simp [sendSignal, hso]
          · refine ⟨_, [], ?_, hsame2, Or.inl rfl, fun h => absurd h hso⟩
            simp [sendSignal, hso]
        · rw [if_neg hl]
          refine ⟨_, [], by simp, hsame1, Or.inl rfl, ?_⟩
          intro _ _ hres
          exact absurd (hres.2.2 f _ answer) hl
    · rw [if_neg hr]
      refine ⟨s.peers, [], by simp, samePeers_refl _, Or.inl rfl, ?_⟩
      intro _ _ hres
      exact absurd (hres.1 f pc sdp) hr

theorem flushFinish_fold (P : Platform) (sc : Scope) (pending : List (String × Sdp)) :
    ∀ s : Room, ∃ (peers2 : List (String × Peer)) (added : List Effect),
      pending.foldl (fun s e => handleOfferFinish P sc s e.1 e.2) s =
        { s with peers := peers2, effects := s.effects ++ added } ∧
      SamePeers s.peers peers2 ∧
      handledOffers added = [] ∧
      (sentAnswers added).Sublist (pending.map (fun e => (sc.clientId, e.1))) ∧
      (s.socketOpen = true → (∀ e ∈ pending, mapHas s.peers e.1 = true) → P.answersResolve →
        sentAnswers added = pending.map (fun e => (sc.clientId, e.1))) := by
  induction pending with
  | nil =>
    intro s
    exact ⟨s.peers, [], by simp, samePeers_refl _, rfl, by simp [sentAnswers],
      fun _ _ _ => rfl⟩
  | cons e rest ih =>
    intro s
    rw [List.foldl_cons]
    obtain ⟨p1, a1, heq1, hsame1, hshape1, hok1⟩ := handleOfferFinish_shape P sc s e.1 e.2
    rw [heq1]
    obtain ⟨p2, a2, heq2, hsame2, hh2, hsub2, hok2⟩ := ih
      { s with peers := p1, effects := s.effects ++ a1 }
    refine ⟨p2, a1 ++ a2, ?_, samePeers_trans hsame1 hsame2, ?_, ?_, ?_⟩
    · rw [heq2]
      simp
    · rcases hshape1 with h | ⟨a, h⟩ <;> simp [h, handledOffers] at hh2 ⊢ <;> exact hh2
    · rcases hshape1 with h | ⟨a, h⟩
      · rw [h, List.nil_append, List.map_cons]
        exact List.Sublist.cons _ hsub2
      · have : sentAnswers (a1 ++ a2) = (sc.clientId, e.1) :: sentAnswers a2 := by
          simp [h, sentAnswers]
        rw [this, List.map_cons]
        exact List.Sublist.cons₂ _ hsub2
    · intro hso hhas hres
      obtain ⟨a, h⟩ := hok1 hso (hhas e (List.mem_cons_self _ _)) hres
      have h3 := hok2 hso
        (fun e2 he2 => by
          have h4 : mapHas p1 e2.1 = mapHas s.peers e2.1 := samePeers_mapHas hsame1 e2.1
          show mapHas p1 e2.1 = true
          rw [h4]
          exact hhas e2 (List.mem_cons_of_mem _ he2))
        hres
      have : sentAnswers (a1 ++ a2) = (sc.clientId, e.1) :: sentAnswers a2 := by
        simp [h, sentAnswers]
      rw [this, h3, List.map_cons]

/-- The result of the flush effect once local media is ready. -/
theorem flushPending_shape (P : Platform) (st : Room) (hm : st.localStream ≠ none) :
    ∃ (peers2 : List (String × Peer)) (added : List Effect),
      flushPending P st =
        { st with peers := peers2, effects := st.effects ++ added, pendingOffers := [] } ∧
      handledOffers added = st.pendingOffers ∧
      (sentAnswers added).Sublist (st.pendingOffers.map (fun e => (st.clientId, e.1))) ∧
      (st.socketOpen = true → P.answersResolve →
        sentAnswers added = st.pendingOffers.map (fun e => (st.clientId, e.1))) := by
  have hmatch : flushPending P st =
      if st.pendingOffers.length = 0 then st
      else
        st.pendingOffers.foldl (fun s e => handleOfferFinish P st.scope s e.1 e.2)
          (st.pendingOffers.foldl (flushStep st.scope) st) := by
    unfold flushPending
    cases hls : st.localStream with
    | none => exact absurd hls hm
    | some ls => rfl
  rw [hmatch]
  by_cases hlen : st.pendingOffers.length = 0
  · rw [if_pos hlen]
    have hnil : st.pendingOffers = [] := List.length_eq_zero.1 hlen
    refine ⟨st.peers, [], ?_, ?_, ?_, ?_⟩
    · cases st
      simp only [List.append_nil] at hnil ⊢
      rw [hnil]
    · rw [hnil]
      rfl
    · rw [hnil]
      simp [sentAnswers]
    · intro _ _
      rw [hnil]
      rfl
  · rw [if_neg hlen]
    obtain ⟨p1, a1, heq1, hh1, hs1, hhas1, _⟩ := flushStart_fold st.scope st.pendingOffers st
    rw [heq1]
    obtain ⟨p2, a2, heq2, _, hh2, hsub2, hok2⟩ := flushFinish_fold P st.scope
      st.pendingOffers
      { st with
        peers := p1
        effects := st.effects ++ a1
        pendingOffers := st.pendingOffers.filter
          (fun q => decide (q.1 ∉ st.pendingOffers.map (fun e => e.1))) }
    rw [heq2]
    have hfil : st.pendingOffers.filter
        (fun q => decide (q.1 ∉ st.pendingOffers.map (fun e => e.1))) = [] := by
      rw [List.filter_eq_nil_iff]
      intro q hq
      have : q.1 ∈ st.pendingOffers.map (fun e => e.1) := List.mem_map_of_mem _ hq
      simpa using this
    refine ⟨p2, a1 ++ a2, ?_, ?_, ?_, ?_⟩
    · rw [hfil]
      simp
    · rw [handledOffers_append, hh1, hh2, List.append_nil]
    · rw [sentAnswers_append, hs1, List.nil_append]
      exact hsub2
    · intro hso hres
      rw [sentAnswers_append, hs1, List.nil_append]
      exact hok2 hso hhas1 hres

theorem mapGet_fold_mapSet_nil (offers : List (String × Sdp)) (f : String) :
    mapGet (offers.foldl (fun m o => mapSet m o.1 o.2) []) f = latestOffer offers f := by
  rw [mapGet_fold_mapSet]
  cases latestOffer offers f <;> rfl

theorem mem_keys_iff_isSome {V : Type} (m : List (String × V)) (k : String) :
    k ∈ m.map (fun e => e.1) ↔ (mapGet m k).isSome = true := by
  rw [← mapHas_iff_mem_keys]
  rfl

/-- Claim C9. After offers have been queued while local media was not ready,
the flush that runs once media is ready leaves the pending-offer map empty and
hands to a connection, for each sender, exactly one offer, the one most
recently received from that sender, and no superseded one; it sends at most
one answer to each sender that has a queued offer and none to anyone else, and
exactly one answer, from self, to each such sender when the socket is open and
the answering steps resolve. -/
theorem flush_replays_latest (P P2 : Platform) (sc : Scope) (now : Nat) (st : Room)
    (offers : List (String × Sdp)) (stream : Stream) (hm : sc.localStream = none)
    (hempty : st.pendingOffers = []) (hne : ∀ o ∈ offers, o.1 ≠ "") (g f : String)
    (s : Sdp) :
    (flushPending P2 (mediaReady (receiveOffers P sc now st offers) stream)).pendingOffers
        = [] ∧
    (handledOffers
        (flushPending P2 (mediaReady (receiveOffers P sc now st offers) stream)).effects).count
          (f, s) =
      (handledOffers st.effects).count (f, s) +
        (if latestOffer offers f = some s then 1 else 0) ∧
    (sentAnswers
        (flushPending P2 (mediaReady (receiveOffers P sc now st offers) stream)).effects).count
          (g, f) ≤
      (sentAnswers st.effects).count (g, f) +
        (if g = st.clientId ∧ (latestOffer offers f).isSome = true then 1 else 0) ∧
    (st.socketOpen = true → P2.answersResolve →
      (sentAnswers
          (flushPending P2 (mediaReady (receiveOffers P sc now st offers) stream)).effects).count
            (g, f) =
        (sentAnswers st.effects).count (g, f) +
          (if g = st.clientId ∧ (latestOffer offers f).isSome = true then 1 else 0)) := by
  rw [receiveOffers_eq P sc now offers hm hne st, hempty]
  have hnd : ((offers.foldl (fun m o => mapSet m o.1 o.2) []).map (fun e => e.1)).Nodup :=
    keys_nodup_fold_mapSet offers [] List.nodup_nil
  obtain ⟨p2, added, heq, hh, hsub, hok⟩ := flushPending_shape P2
    (mediaReady { st with pendingOffers := offers.foldl (fun m o => mapSet m o.1 o.2) [] } stream)
    (by simp [mediaReady])
  rw [heq]
  simp only [mediaReady] at hh hsub hok ⊢
  have hmap : (offers.foldl (fun m o => mapSet m o.1 o.2) []).map
      (fun e => (st.clientId, e.1)) =
      ((offers.foldl (fun m o => mapSet m o.1 o.2) []).map (fun e => e.1)).map
        (fun x => (st.clientId, x)) := by
    rw [List.map_map]
    rfl
  have hcount : ((offers.foldl (fun m o => mapSet m o.1 o.2) []).map
      (fun e => (st.clientId, e.1))).count (g, f) =
      if g = st.clientId ∧ (latestOffer offers f).isSome = true then 1 else 0 := by
    rw [hmap, count_map_pair _ _ _ _ hnd]
    simp only [mem_keys_iff_isSome, mapGet_fold_mapSet_nil]
  refine ⟨trivial, ?_, ?_, ?_⟩
  · rw [handledOffers_append, hh, List.count_append, count_entry_of_keys_nodup _ _ _ hnd]
    simp only [mapGet_fold_mapSet_nil]
  · rw [sentAnswers_append, List.count_append]
    have h1 := hsub.count_le (g, f)
    rw [hcount] at h1
    omega
  · intro hso hres
    rw [sentAnswers_append, List.count_append, hok hso hres, hcount]

theorem flush_replays_latest_witness :
    (flushPending Platform.resolving
        (mediaReady
          (receiveOffers Platform.resolving Scope.initial 1
            { Room.init with socketOpen := true, clientId := "a3" }
            [("z9", { type := "offer", sdp := "old" }), ("z9", { type := "offer", sdp := "new" })])
          sampleStream)).pendingOffers = [] ∧
    (sentAnswers
        (flushPending Platform.resolving
          (mediaReady
            (receiveOffers Platform.resolving Scope.initial 1
              { Room.init with socketOpen := true, clientId := "a3" }
              [("z9", { type := "offer", sdp := "old" }),
                ("z9", { type := "offer", sdp := "new" })])
            sampleStream)).effects).count ("a3", "z9") = 1 := by
  have h := flush_replays_latest Platform.resolving Platform.resolving Scope.initial 1
    { Room.init with socketOpen := true, clientId := "a3" }
    [("z9", { type := "offer", sdp := "old" }), ("z9", { type := "offer", sdp := "new" })]
    sampleStream rfl rfl (by decide) "a3" "z9" { type := "offer", sdp := "new" }
  refine ⟨h.1, ?_⟩
  rw [h.2.2.2 rfl ⟨fun _ _ _ => rfl, fun _ _ => rfl, fun _ _ _ => rfl⟩]
  decide

/-! ## Answers and candidates without a connection -/

/-- Claim C11. A `webrtc` answer (with its `sdp`) or `ice` frame (with its
`candidate`) from a non-empty id that has no entry in the connection map
leaves the whole state as it was: no connection is created, the connection
map, the pending-offer map and the registry are unchanged, nothing is sent,
and nothing is appended to the message list (the handler does not reach its
`catch` branch). -/
theorem stray_answer_or_ice_ignored (P : Platform) (sc : Scope) (now : Nat) (st : Room)
    (p : Payload) (f : String) (ht : p.type = some "webrtc") (hf : p.from_ = some f)
    (hne : f ≠ "") (hnone : mapHas st.peers f = false)
    (hkind : (p.action = some "answer" ∧ p.sdp ≠ none) ∨
      (p.action = some "ice" ∧ p.candidate ≠ none)) :
    onmessage P sc now st (Frame.json p) = st ∧
    (onmessage P sc now st (Frame.json p)).peers = st.peers ∧
    (onmessage P sc now st (Frame.json p)).pendingOffers = st.pendingOffers ∧
    (onmessage P sc now st (Frame.json p)).participants = st.participants ∧
    (onmessage P sc now st (Frame.json p)).effects = st.effects ∧
    (onmessage P sc now st (Frame.json p)).messages = st.messages := by
  have hget : mapGet st.peers f = none := by
    cases hg : mapGet st.peers f with
    | none => rfl
    | some pc =>
      rw [mapHas_of_mapGet st.peers f pc hg] at hnone
      exact absurd hnone (by simp)
  have key : onmessage P sc now st (Frame.json p) = st := by
    rw [onmessage_webrtc P sc now st p ht, hf]
    dsimp only
    rw [if_neg hne]
    split
    · rfl
    · rcases hkind with ⟨ha, hs⟩ | ⟨ha, hc⟩
      · cases hsdp : p.sdp with
        | none => exact absurd hsdp hs
        | some sdp => simp [webrtcBranch, ha, hsdp, hget]
      · cases hcand : p.candidate with
        | none => exact absurd hcand hc
        | some c => simp [webrtcBranch, ha, hcand, hget]
  rw [key]
  exact ⟨rfl, rfl, rfl, rfl, rfl, rfl⟩

theorem stray_answer_or_ice_ignored_witness :
    onmessage Platform.resolving { Scope.initial with clientId := "a3" } 1
        (readyRoom "a3" ["a3", "b7"]) (answerFrame "b7" { type := "answer", sdp := "v=0" }) =
      readyRoom "a3" ["a3", "b7"] ∧
    onmessage Platform.resolving { Scope.initial with clientId := "a3" } 1
        (readyRoom "a3" ["a3", "b7"]) (iceFrame "b7" { candidate := "c" }) =
      readyRoom "a3" ["a3", "b7"] :=
  ⟨(stray_answer_or_ice_ignored Platform.resolving { Scope.initial with clientId := "a3" } 1
      (readyRoom "a3" ["a3", "b7"]) _ "b7" rfl rfl (by decide) rfl
      (Or.inl ⟨rfl, by simp [answerFrame, Payload.blank]⟩)).1,
   (stray_answer_or_ice_ignored Platform.resolving { Scope.initial with clientId := "a3" } 1
      (readyRoom "a3" ["a3", "b7"]) _ "b7" rfl rfl (by decide) rfl
      (Or.inr ⟨rfl, by simp [iceFrame, Payload.blank]⟩)).1⟩

/-! ## Frames of no known kind -/

theorem onmessage_unknown (P : Platform) (sc : Scope) (now : Nat) (st : Room) (p : Payload)
    (h1 : p.type ≠ some "welcome") (h2 : p.type ≠ some "participants")
    (h3 : p.type ≠ some "profile") (h5 : p.type ≠ some "webrtc") :
    onmessage P sc now st (Frame.json p) = fallThrough sc now st p := by
  simp only [onmessage]
  rw [if_neg (fun h => h1 h.1)]
  split
  · rename_i entries ht hp
    exact absurd ht h2
  · rw [if_neg (fun h => h3 h.1)]
    split
    · rename_i fromId ht hfrom
      exact absurd ht h5
    · rfl

theorem fallThrough_of_not_presence (sc : Scope) (now : Nat) (st : Room) (p : Payload)
    (h4 : p.type ≠ some "presence") :
    fallThrough sc now st p =
      { st with
        displayNames :=
          if truthy p.displayName ∧ truthy p.clientId then
            setDisplayNameFor st.displayNames p.clientId p.displayName
          else st.displayNames
        participants :=
          if truthy p.clientId then upsertParticipant now st.participants p.clientId
          else st.participants
        messages := st.messages ++ [Msg.payload p] } := by
  unfold fallThrough
  rw [if_neg h4]
  dsimp only
  split <;> split <;> rfl

/-- Claim C12, as the code behaves: a `chat` frame that carries a client id
puts that id into the registry. -/
theorem chat_frame_upserts_sender :
    Room.init.participants = [] ∧
    (onmessage Platform.resolving Scope.initial 1 Room.init (chatFrame "c9")).participants =
      [{ id := some "c9", lastSeen := 1 }] := by
  decide

/-- Claim C12, amended: a parsed payload whose type is none of `welcome`,
`participants`, `profile`, `presence` and `webrtc` leaves the connection map
and the pending-offer map unchanged, sends nothing and is appended to the
message list; the registry is unchanged when the payload carries no non-empty
`clientId`, and otherwise that id is upserted into it. An unparseable frame
changes nothing but the message list, to which its text is appended. -/
theorem unknown_payload_effect (P : Platform) (sc : Scope) (now : Nat) (st : Room)
    (p : Payload) (h1 : p.type ≠ some "welcome") (h2 : p.type ≠ some "participants")
    (h3 : p.type ≠ some "profile") (h4 : p.type ≠ some "presence")
    (h5 : p.type ≠ some "webrtc") :
    (onmessage P sc now st (Frame.json p)).peers = st.peers ∧
    (onmessage P sc now st (Frame.json p)).pendingOffers = st.pendingOffers ∧
    (onmessage P sc now st (Frame.json p)).effects = st.effects ∧
    (onmessage P sc now st (Frame.json p)).messages = st.messages ++ [Msg.payload p] ∧
    (truthy p.clientId = false →
      (onmessage P sc now st (Frame.json p)).participants = st.participants) ∧
    (truthy p.clientId = true →
      (onmessage P sc now st (Frame.json p)).participants =
        upsertParticipant now st.participants p.clientId) ∧
    (∀ data : String,
      onmessage P sc now st (Frame.unparseable data) =
        { st with messages := st.messages ++ [Msg.raw data] }) := by
  rw [onmessage_unknown P sc now st p h1 h2 h3 h5, fallThrough_of_not_presence sc now st p h4]
  refine ⟨rfl, rfl, rfl, rfl, ?_, ?_, fun _ => rfl⟩
  · intro hc
    dsimp only
    rw [if_neg (by simp [hc])]
  · intro hc
    dsimp only
    rw [if_pos hc]

theorem unknown_payload_effect_witness :
    (onmessage Platform.resolving Scope.initial 1 (readyRoom "a3" ["a3"])
        (Frame.json { Payload.blank with type := some "typing" })).participants =
      registryOf ["a3"] ∧
    (onmessage Platform.resolving Scope.initial 1 (readyRoom "a3" ["a3"])
        (Frame.json { Payload.blank with type := some "typing" })).peers = [] :=
  ⟨(unknown_payload_effect Platform.resolving Scope.initial 1 (readyRoom "a3" ["a3"])
      { Payload.blank with type := some "typing" }
      (by decide) (by decide) (by decide) (by decide) (by decide)).2.2.2.2.1 rfl,
   (unknown_payload_effect Platform.resolving Scope.initial 1 (readyRoom "a3" ["a3"])
      { Payload.blank with type := some "typing" }
      (by decide) (by decide) (by decide) (by decide) (by decide)).1⟩

/-! ## The readiness guard of the reconciliation effect -/

/-- Claim C14. Without a local capture stream a reconciliation pass returns
the state as it was, for every registry, local id and connection map and
whatever the platform does: it sends no offer and creates no connection. -/
theorem reconcile_waits_for_media (P : Platform) (st : Room) (hm : st.localStream = none) :
    reconcile P st = st ∧
    sentOffers (reconcile P st).effects = sentOffers st.effects ∧
    createdPeers (reconcile P st).effects = createdPeers st.effects ∧
    (reconcile P st).peers = st.peers := by
  have key : reconcile P st = st := by
    unfold reconcile
    rw [if_pos (Or.inl hm)]
  rw [key]
  exact ⟨rfl, rfl, rfl, rfl⟩

theorem reconcile_waits_for_media_witness :
    reconcile Platform.resolving
        { readyRoom "a3" ["a3", "b7"] with localStream := none } =
      { readyRoom "a3" ["a3", "b7"] with localStream := none } :=
  (reconcile_waits_for_media Platform.resolving
    { readyRoom "a3" ["a3", "b7"] with localStream := none } rfl).1

/-! ## Display names -/

@[simp] theorem sendSignal_displayNames (st : Room) (sig : Signal) :
    (sendSignal st sig).displayNames = st.displayNames := by
  unfold sendSignal; split <;> rfl

@[simp] theorem sendProfile_displayNames (sc : Scope) (st : Room) :
    (sendProfile sc st).displayNames = st.displayNames := by
  unfold sendProfile; split <;> simp

@[simp] theorem createPeer_displayNames (sc : Scope) (st : Room) (r : String) :
    (createPeer sc st r).displayNames = st.displayNames := by
  unfold createPeer; split <;> rfl

@[simp] theorem handleOffer_displayNames (P : Platform) (sc : Scope) (st : Room)
    (f : String) (s : Sdp) : (handleOffer P sc st f s).displayNames = st.displayNames := by
  unfold handleOffer
  obtain ⟨p2, added, heq, _⟩ := handleOfferFinish_shape P sc (handleOfferStart sc st f s) f s
  rw [heq]
  simp [handleOfferStart]

theorem mapSet_namesRecorded (names : List (String × String)) (k v : String)
    (h : NamesRecorded names) (hv : v ≠ "") : NamesRecorded (mapSet names k v) := by
  intro e he
  rcases mem_mapSet names k v e he with h1 | h1
  · exact h e h1
  · rw [h1]
    exact hv

theorem setDisplayNameFor_namesRecorded (names : List (String × String))
    (id name : Option String) (h : NamesRecorded names) :
    NamesRecorded (setDisplayNameFor names id name) := by
  unfold setDisplayNameFor
  split
  · rename_i i n
    by_cases hc : i = "" ∨ n = ""
    · rw [if_pos hc]
      exact h
    · rw [if_neg hc]
      exact mapSet_namesRecorded names i n h (fun e => hc (Or.inr e))
  · exact h

theorem mappedNames_namesRecorded (entries : List Entry) :
    NamesRecorded (mappedNames entries) := by
  unfold mappedNames
  have key : ∀ (l : List Entry) (acc : List (String × String)), NamesRecorded acc →
      NamesRecorded
        (l.foldl
          (fun mapped entry =>
            match entry.displayName with
            | some name => if name = "" then mapped else objAssign mapped (keyOf entry.id) name
            | none => mapped)
          acc) := by
    intro l
    induction l with
    | nil => intro acc h; exact h
    | cons e rest ih =>
      intro acc h
      rw [List.foldl_cons]
      apply ih
      split
      · rename_i name _
        by_cases hn : name = ""
        · rw [if_pos hn]
          exact h
        · rw [if_neg hn]
          unfold objAssign
          split
          · exact h
          · exact mapSet_namesRecorded acc _ name h hn
      · exact h
  exact key entries [] (fun e he => absurd he (List.not_mem_nil e))

theorem spread_namesRecorded (prev mapped : List (String × String))
    (h1 : NamesRecorded prev) (h2 : NamesRecorded mapped) :
    NamesRecorded (spread prev mapped) := by
  unfold spread
  induction mapped generalizing prev with
  | nil => exact h1
  | cons kv rest ih =>
    rw [List.foldl_cons]
    apply ih
    · exact mapSet_namesRecorded prev kv.1 kv.2 h1 (h2 kv (List.mem_cons_self _ _))
    · exact fun e he => h2 e (List.mem_cons_of_mem _ he)

theorem fallThrough_namesRecorded (sc : Scope) (now : Nat) (st : Room) (p : Payload)
    (h : NamesRecorded st.displayNames) :
    NamesRecorded (fallThrough sc now st p).displayNames := by
  unfold fallThrough
  have h1 : NamesRecorded
      (if p.type = some "presence" then
        if p.action = some "join" then
          sendProfile sc { st with participants := upsertParticipant now st.participants p.clientId }
        else if p.action = some "leave" then
          { st with participants := removeParticipant st.participants p.clientId }
        else st
      else st).displayNames := by
    split
    · split
      · simpa using h
      · split <;> exact h
    · exact h
  generalize (if p.type = some "presence" then
        if p.action = some "join" then
          sendProfile sc { st with participants := upsertParticipant now st.participants p.clientId }
        else if p.action = some "leave" then
          { st with participants := removeParticipant st.participants p.clientId }
        else st
      else st) = st1 at h1
  dsimp only
  split <;> split <;> first
    | exact setDisplayNameFor_namesRecorded _ _ _ h1
    | exact h1

theorem webrtcBranch_namesRecorded (P : Platform) (sc : Scope) (now : Nat) (st : Room)
    (p : Payload) (f : String) (h : NamesRecorded st.displayNames) :
    NamesRecorded (webrtcBranch P sc now st p f).displayNames := by
  unfold webrtcBranch
  split
  · split
    · exact h
    · simpa using h
  · split
    · dsimp only
      split <;> exact h
    · exact h
  · split
    · dsimp only
      split <;> exact h
    · exact h
  · exact fallThrough_namesRecorded sc now st p h

theorem onmessage_namesRecorded (P : Platform) (sc : Scope) (now : Nat) (st : Room)
    (frame : Frame) (h : NamesRecorded st.displayNames) :
    NamesRecorded (onmessage P sc now st frame).displayNames := by
  cases frame with
  | unparseable data => exact h
  | json p =>
    simp only [onmessage]
    split
    · split
      · exact h
      · simpa using setDisplayNameFor_namesRecorded _ _ _ h
    · split
      · simp only [sendProfile_displayNames]
        split
        · exact spread_namesRecorded _ _ h (mappedNames_namesRecorded _)
        · exact h
      · split
        · exact setDisplayNameFor_namesRecorded _ _ _ h
        · split
          · split
            · exact fallThrough_namesRecorded sc now st p h
            · split
              · exact h
              · exact webrtcBranch_namesRecorded P sc now st p _ h
          · exact fallThrough_namesRecorded sc now st p h

theorem run_namesRecorded (events : List Event) :
    ∀ st : Room, NamesRecorded st.displayNames →
      NamesRecorded (run st events).displayNames := by
  induction events with
  | nil => intro st h; exact h
  | cons e rest ih =>
    intro st h
    apply ih
    cases e with
    | message P sc now frame => exact onmessage_namesRecorded P sc now st frame h
    | localUpsert now id => exact h

/-- The name lookup on an id that names no member of `Object.prototype`, in a
state whose recorded names are non-empty: the local name for the local id when
the local name is non-empty, otherwise the recorded name when there is one and
`"Anonymous"` when there is none. -/
theorem displayNameFor_of_plain_id (st : Room) (id : String)
    (hplain : id ∉ objectPrototypeKeys) (hrec : NamesRecorded st.displayNames) :
    (id = st.clientId → st.localName ≠ "" →
      displayNameFor st (some id) = JsValue.str st.localName) ∧
    (¬ (id = st.clientId ∧ st.localName ≠ "") →
      ∀ name, mapGet st.displayNames id = some name →
        displayNameFor st (some id) = JsValue.str name) ∧
    (¬ (id = st.clientId ∧ st.localName ≠ "") →
      mapGet st.displayNames id = none →
        displayNameFor st (some id) = JsValue.str "Anonymous") := by
  refine ⟨?_, ?_, ?_⟩
  · intro h1 h2
    unfold displayNameFor
    rw [if_pos ⟨by rw [h1], h2⟩]
  · intro hn name hg
    unfold displayNameFor
    rw [if_neg (fun h => hn ⟨Option.some.inj h.1, h.2⟩)]
    have hne : name ≠ "" := hrec (id, name) (mapGet_some_mem _ _ _ hg)
    simp only [keyOf, objGet, hg]
    rw [if_neg hne]
  · intro hn hg
    unfold displayNameFor
    rw [if_neg (fun h => hn ⟨Option.some.inj h.1, h.2⟩)]
    simp only [keyOf, objGet, hg]
    rw [if_neg hplain]

/-- Claim C13, as the code behaves: for an id that names a member of
`Object.prototype` and has no recorded name, `displayNames[id]` is the
inherited member, which is truthy, so `displayNameFor(id)` returns that member
and not `"Anonymous"`. -/
theorem displayNameFor_inherited_member (st : Room) (key : String)
    (hk : key ∈ objectPrototypeKeys) (hown : mapGet st.displayNames key = none)
    (hloc : ¬ (key = st.clientId ∧ st.localName ≠ "")) :
    displayNameFor st (some key) = JsValue.inherited key ∧
    displayNameFor st (some key) ≠ JsValue.str "Anonymous" := by
  have h : displayNameFor st (some key) = JsValue.inherited key := by
    unfold displayNameFor
    rw [if_neg (fun h => hloc ⟨Option.some.inj h.1, h.2⟩)]
    simp only [keyOf, objGet, hown]
    rw [if_pos hk]
  rw [h]
  exact ⟨rfl, fun e => JsValue.noConfusion e⟩

theorem displayNameFor_inherited_member_witness :
    some "constructor" ∈
      (onmessage Platform.resolving Scope.initial 2
        (run Room.init [Event.message Platform.resolving Scope.initial 1 (welcomeFrame "a3")])
        (chatFrame "constructor")).participants.map (fun q => q.id) ∧
    displayNameFor
        (onmessage Platform.resolving Scope.initial 2
          (run Room.init [Event.message Platform.resolving Scope.initial 1 (welcomeFrame "a3")])
          (chatFrame "constructor"))
        (some "constructor") = JsValue.inherited "constructor" :=
  ⟨by decide,
   (displayNameFor_inherited_member
      (onmessage Platform.resolving Scope.initial 2
        (run Room.init [Event.message Platform.resolving Scope.initial 1 (welcomeFrame "a3")])
        (chatFrame "constructor"))
      "constructor" (by decide) (by decide) (by decide)).1⟩

/-! ## The order of the replay -/

theorem keys_fold_mapSet (offers : List (String × Sdp)) :
    ∀ m : List (String × Sdp),
      (offers.foldl (fun m o => mapSet m o.1 o.2) m).map (fun e => e.1) =
        m.map (fun e => e.1) ++
          (firstSeen (offers.map (fun o => o.1))).filter
            (fun k => decide (k ∉ m.map (fun e => e.1))) := by
  induction offers with
  | nil => intro m; simp [firstSeen]
  | cons o rest ih =>
    intro m
    rw [List.foldl_cons, ih]
    cases hb : mapHas m o.1
    · have hnot : o.1 ∉ m.map (fun e => e.1) := (mapHas_false_iff m o.1).1 hb
      rw [mapSet_of_not_has m o.1 o.2 hb]
      simp only [List.map_append, List.map_cons, List.map_nil, firstSeen, List.append_assoc,
        List.singleton_append]
      rw [List.filter_cons_of_pos (by simpa using hnot), List.filter_filter]
      congr 2
      apply List.filter_congr
      intro k _
      by_cases hk : k = o.1
      · simp [hk]
      · simp [hk]
    · have hin : o.1 ∈ m.map (fun e => e.1) := (mapHas_iff_mem_keys m o.1).1 hb
      rw [keys_mapSet_of_has m o.1 o.2 hb]
      simp only [List.map_cons, firstSeen]
      rw [List.filter_cons_of_neg (by simpa using hin), List.filter_filter]
      congr 1
      apply List.filter_congr
      intro k _
      by_cases hk : k = o.1
      · rw [hk]
        simpa using hin
      · simp [hk]

theorem entries_of_keys_nodup (m : List (String × Sdp))
    (hnd : (m.map (fun e => e.1)).Nodup) :
    m = (m.map (fun e => e.1)).filterMap (fun k => (mapGet m k).map (fun s => (k, s))) := by
  induction m with
  | nil => rfl
  | cons e rest ih =>
    obtain ⟨k, v⟩ := e
    rw [List.map_cons, List.nodup_cons] at hnd
    have hhead : (mapGet ((k, v) :: rest) k).map (fun s => (k, s)) = some (k, v) := by
      simp [mapGet]
    have htail : (rest.map (fun e => e.1)).filterMap
        (fun k2 => (mapGet ((k, v) :: rest) k2).map (fun s => (k2, s))) =
        (rest.map (fun e => e.1)).filterMap
          (fun k2 => (mapGet rest k2).map (fun s => (k2, s))) := by
      apply List.filterMap_congr
      intro k2 hk2
      have hne : ¬ k = k2 := fun e => hnd.1 (by rw [e]; exact hk2)
      simp [mapGet, hne]
    rw [List.map_cons, List.filterMap_cons]
    dsimp only
    rw [hhead]
    dsimp only
    rw [htail, ← ih hnd.2]

theorem queued_entries (offers : List (String × Sdp)) :
    offers.foldl (fun m o => mapSet m o.1 o.2) [] =
      (firstSeen (offers.map (fun o => o.1))).filterMap
        (fun f => (latestOffer offers f).map (fun s => (f, s))) := by
  have hnd := keys_nodup_fold_mapSet offers [] List.nodup_nil
  have hkeys : (offers.foldl (fun m o => mapSet m o.1 o.2) []).map (fun e => e.1) =
      firstSeen (offers.map (fun o => o.1)) := by
    rw [keys_fold_mapSet offers []]
    simp
  have h := entries_of_keys_nodup _ hnd
  rw [hkeys] at h
  have hfun : (fun k => (mapGet (offers.foldl (fun m o => mapSet m o.1 o.2) []) k).map
      (fun s => (k, s))) = (fun f => (latestOffer offers f).map (fun s => (f, s))) := by
    funext k
    rw [mapGet_fold_mapSet_nil]
  rw [hfun] at h
  exact h

/-- Claim C15, as the code behaves: after the offers x1:S1, y2:T, x1:S2 the
retained offer of y2 was received before the retained offer of x1, yet the
flush hands the offer of x1 to its connection first. -/
theorem flush_replays_overwritten_sender_first :
    handledOffers
        (flushPending Platform.resolving
          (mediaReady
            (receiveOffers Platform.resolving Scope.initial 1 Room.init
              [("x1", { type := "offer", sdp := "S1" }), ("y2", { type := "offer", sdp := "T" }),
                ("x1", { type := "offer", sdp := "S2" })])
            sampleStream)).effects =
      [("x1", { type := "offer", sdp := "S2" }), ("y2", { type := "offer", sdp := "T" })] := by
  decide

/-- Claim C15, amended: the offers queued while media was not ready are
replayed in the order in which their senders first had an offer queued: the
flush hands to the connections, in the order of each sender's first offer,
one offer per sender, the sender's latest. -/
theorem flush_replays_in_first_arrival_order (P P2 : Platform) (sc : Scope) (now : Nat)
    (st : Room) (offers : List (String × Sdp)) (stream : Stream)
    (hm : sc.localStream = none) (hempty : st.pendingOffers = [])
    (hne : ∀ o ∈ offers, o.1 ≠ "") :
    handledOffers
        (flushPending P2 (mediaReady (receiveOffers P sc now st offers) stream)).effects =
      handledOffers st.effects ++
        (firstSeen (offers.map (fun o => o.1))).filterMap
          (fun f => (latestOffer offers f).map (fun s => (f, s))) := by
  rw [receiveOffers_eq P sc now offers hm hne st, hempty]
  obtain ⟨p2, added, heq, hh, _, _⟩ := flushPending_shape P2
    (mediaReady { st with pendingOffers := offers.foldl (fun m o => mapSet m o.1 o.2) [] } stream)
    (by simp [mediaReady])
  rw [heq]
  simp only [mediaReady] at hh ⊢
  rw [handledOffers_append, hh, queued_entries]

theorem flush_replays_in_first_arrival_order_witness :
    handledOffers
        (flushPending Platform.resolving
          (mediaReady
            (receiveOffers Platform.resolving Scope.initial 1 Room.init
              [("y2", { type := "offer", sdp := "T" }), ("x1", { type := "offer", sdp := "S1" }),
                ("y2", { type := "offer", sdp := "T2" })])
            sampleStream)).effects =
      [("y2", { type := "offer", sdp := "T2" }), ("x1", { type := "offer", sdp := "S1" })] := by
  rw [flush_replays_in_first_arrival_order Platform.resolving Platform.resolving Scope.initial 1
    Room.init _ sampleStream rfl rfl (by decide)]
  decide

/-! ## Attaching is idempotent -/

theorem attachLocalTracks_senders (sc : Scope) (pc : Peer) (ls : Stream)
    (hls : sc.localStream = some ls) :
    (attachLocalTracks sc pc).senders =
      pc.senders ++
        (ls.tracks.filter
          (fun t => !(pc.senders.map
            (fun sender => sender.track.map (fun t => t.id))).contains (some t.id))).map
          (fun t => { track := some t }) := by
  simp only [attachLocalTracks, hls, attach_fold]

theorem count_added_senders (existing : List (Option String)) (tid : String) :
    ∀ tracks : List Track, (tracks.map (fun t => t.id)).Nodup →
      (((tracks.filter (fun t => !existing.contains (some t.id))).map
          (fun t => ({ track := some t } : Sender))).map
        (fun sender => sender.track.map (fun t => t.id))).count (some tid) =
        if some tid ∈ existing ∨ tid ∉ tracks.map (fun t => t.id) then 0 else 1 := by
  intro tracks
  induction tracks with
  | nil => intro _; simp
  | cons t rest ih =>
    intro hnd
    rw [List.map_cons, List.nodup_cons] at hnd
    have ih2 := ih hnd.2
    by_cases hex : some t.id ∈ existing
    · rw [List.filter_cons_of_neg (by simpa using hex), ih2]
      by_cases ht : t.id = tid
      · rw [← ht]
        simp [hex]
      · have ht2 : ¬ tid = t.id := fun e => ht e.symm
        simp [ht2]
    · rw [List.filter_cons_of_pos (by simpa using hex), List.map_cons, List.map_cons,
        List.count_cons, ih2]
      by_cases ht : t.id = tid
      · subst ht
        have hnot : t.id ∉ rest.map (fun t => t.id) := hnd.1
        simp [hex, hnot]
      · have ht2 : ¬ tid = t.id := fun e => ht e.symm
        simp [ht, ht2]

/-- Claim C16. `attachLocalTracks` is an idempotent attach: with a local
stream whose tracks have pairwise distinct ids, afterwards each local track id
is carried by as many senders as before when it was carried already and by
exactly one sender otherwise; a second call adds no sender; and without a
local stream the connection is left as it is. -/
theorem attachLocalTracks_idempotent (sc : Scope) (pc : Peer) (ls : Stream)
    (hls : sc.localStream = some ls) (hnd : (ls.tracks.map (fun t => t.id)).Nodup)
    (t : Track) (ht : t ∈ ls.tracks) :
    senderCount (attachLocalTracks sc pc) t.id =
        (if senderCount pc t.id = 0 then 1 else senderCount pc t.id) ∧
    attachLocalTracks sc (attachLocalTracks sc pc) = attachLocalTracks sc pc ∧
    (attachLocalTracks sc (attachLocalTracks sc pc)).senders.length =
      (attachLocalTracks sc pc).senders.length ∧
    attachLocalTracks { sc with localStream := none } pc = pc := by
  have hidem : attachLocalTracks sc (attachLocalTracks sc pc) = attachLocalTracks sc pc :=
    attachLocalTracks_of_covered sc _ (attachLocalTracks_covered sc pc)
  refine ⟨?_, hidem, by rw [hidem], rfl⟩
  unfold senderCount
  rw [attachLocalTracks_senders sc pc ls hls, List.map_append, List.count_append,
    count_added_senders _ t.id ls.tracks hnd]
  have hmem : t.id ∈ ls.tracks.map (fun t => t.id) := List.mem_map_of_mem _ ht
  by_cases hex : some t.id ∈ pc.senders.map (fun sender => sender.track.map (fun t => t.id))
  · have hpos : 0 < (pc.senders.map
        (fun sender => sender.track.map (fun t => t.id))).count (some t.id) :=
      List.count_pos_iff.2 hex
    rw [if_pos (Or.inl hex), if_neg (by omega)]
    rfl
  · have hzero : (pc.senders.map
        (fun sender => sender.track.map (fun t => t.id))).count (some t.id) = 0 :=
      List.count_eq_zero.2 hex
    rw [if_neg (by simp [hex, hmem]), if_pos hzero, hzero]

theorem attachLocalTracks_idempotent_witness :
    senderCount
        (attachLocalTracks { Scope.initial with localStream := some sampleStream }
          { Peer.fresh with
            senders := [{ track := some { id := "t-audio", kind := "audio", enabled := false } }] })
        "t-audio" = 1 ∧
    senderCount
        (attachLocalTracks { Scope.initial with localStream := some sampleStream }
          { Peer.fresh with
            senders := [{ track := some { id := "t-audio", kind := "audio", enabled := false } }] })
        "t-video" = 1 := by
  have h1 := attachLocalTracks_idempotent { Scope.initial with localStream := some sampleStream }
    { Peer.fresh with
      senders := [{ track := some { id := "t-audio", kind := "audio", enabled := false } }] }
    sampleStream rfl (by decide) { id := "t-audio", kind := "audio", enabled := false }
    (by decide)
  have h2 := attachLocalTracks_idempotent { Scope.initial with localStream := some sampleStream }
    { Peer.fresh with
      senders := [{ track := some { id := "t-audio", kind := "audio", enabled := false } }] }
    sampleStream rfl (by decide) { id := "t-video", kind := "video", enabled := false }
    (by decide)
  refine ⟨?_, ?_⟩
  · rw [h1.1]
    decide
  · rw [h2.1]
    decide

/-! ## One remote stream per peer -/

theorem ontrackUpdate_of_exists (prev : List RemoteStream) (remoteId : String)
    (stream : Stream) (h : ∃ item ∈ prev, item.id = remoteId) :
    ontrackUpdate prev remoteId stream =
      prev.map (fun item =>
        if item.id = remoteId then { id := remoteId, stream := stream } else item) := by
  unfold ontrackUpdate
  rw [if_pos]
  rw [List.any_eq_true]
  obtain ⟨item, hi, hid⟩ := h
  exact ⟨item, hi, by simpa using hid⟩

theorem ontrackUpdate_of_not_exists (prev : List RemoteStream) (remoteId : String)
    (stream : Stream) (h : ¬ ∃ item ∈ prev, item.id = remoteId) :
    ontrackUpdate prev remoteId stream = prev ++ [{ id := remoteId, stream := stream }] := by
  unfold ontrackUpdate
  rw [if_neg]
  rw [List.any_eq_true]
  rintro ⟨item, hi, hid⟩
  exact h ⟨item, hi, by simpa using hid⟩

theorem ontrackUpdate_ids_of_exists (prev : List RemoteStream) (remoteId : String)
    (stream : Stream) (h : ∃ item ∈ prev, item.id = remoteId) :
    (ontrackUpdate prev remoteId stream).map (fun item => item.id) =
      prev.map (fun item => item.id) := by
  rw [ontrackUpdate_of_exists prev remoteId stream h, List.map_map]
  apply List.map_congr_left
  intro item _
  simp only [Function.comp]
  split
  · rename_i hid
    exact hid.symm
  · rfl

/-- Claim C17. The inbound-media update for `remoteId` replaces the record of
`remoteId` in place when there is one and appends a record otherwise; a list
with at most one entry per id stays so, afterwards there is an entry for
`remoteId`, every entry for `remoteId` holds the newly arrived stream, and
the entries for other ids are unchanged. An event without a stream changes
nothing. -/
theorem ontrack_records_one_stream (st : Room) (remoteId : String) (stream : Stream)
    (others : List Stream) :
    (ontrack st remoteId (stream :: others)).remoteStreams =
        ontrackUpdate st.remoteStreams remoteId stream ∧
    ((∃ item ∈ st.remoteStreams, item.id = remoteId) →
      (ontrack st remoteId (stream :: others)).remoteStreams =
          st.remoteStreams.map (fun item =>
            if item.id = remoteId then { id := remoteId, stream := stream } else item) ∧
        (ontrack st remoteId (stream :: others)).remoteStreams.map (fun item => item.id) =
          st.remoteStreams.map (fun item => item.id)) ∧
    ((¬ ∃ item ∈ st.remoteStreams, item.id = remoteId) →
      (ontrack st remoteId (stream :: others)).remoteStreams =
        st.remoteStreams ++ [{ id := remoteId, stream := stream }]) ∧
    (UniqueStreams st.remoteStreams →
      UniqueStreams (ontrack st remoteId (stream :: others)).remoteStreams) ∧
    (∃ item ∈ (ontrack st remoteId (stream :: others)).remoteStreams, item.id = remoteId) ∧
    (∀ item ∈ (ontrack st remoteId (stream :: others)).remoteStreams,
      item.id = remoteId → item.stream = stream) ∧
    (ontrack st remoteId (stream :: others)).remoteStreams.filter
        (fun item => decide (item.id ≠ remoteId)) =
      st.remoteStreams.filter (fun item => decide (item.id ≠ remoteId)) ∧
    ontrack st remoteId [] = st := by
  have hrs : (ontrack st remoteId (stream :: others)).remoteStreams =
      ontrackUpdate st.remoteStreams remoteId stream := rfl
  rw [hrs]
  refine ⟨rfl, ?_, ?_, ?_, ?_, ?_, ?_, rfl⟩
  · intro h
    exact ⟨ontrackUpdate_of_exists _ _ _ h, ontrackUpdate_ids_of_exists _ _ _ h⟩
  · intro h
    exact ontrackUpdate_of_not_exists _ _ _ h
  · intro hu
    unfold UniqueStreams at hu ⊢
    by_cases h : ∃ item ∈ st.remoteStreams, item.id = remoteId
    · rw [ontrackUpdate_ids_of_exists _ _ _ h]
      exact hu
    · rw [ontrackUpdate_of_not_exists _ _ _ h, List.map_append, List.nodup_append]
      refine ⟨hu, by simp, ?_⟩
      intro a ha hb
      have hb2 : a = remoteId := by simpa using hb
      subst hb2
      rw [List.mem_map] at ha
      obtain ⟨item, hi, hid⟩ := ha
      exact h ⟨item, hi, hid⟩
  · by_cases h : ∃ item ∈ st.remoteStreams, item.id = remoteId
    · obtain ⟨item, hi, hid⟩ := h
      rw [ontrackUpdate_of_exists _ _ _ ⟨item, hi, hid⟩]
      refine ⟨{ id := remoteId, stream := stream }, ?_, rfl⟩
      rw [List.mem_map]
      exact ⟨item, hi, by rw [if_pos hid]⟩
    · rw [ontrackUpdate_of_not_exists _ _ _ h]
      exact ⟨{ id := remoteId, stream := stream }, by simp, rfl⟩
  · intro item hitem hid
    by_cases h : ∃ item ∈ st.remoteStreams, item.id = remoteId
    · rw [ontrackUpdate_of_exists _ _ _ h, List.mem_map] at hitem
      obtain ⟨old, _, hold⟩ := hitem
      by_cases ho : old.id = remoteId
      · rw [if_pos ho] at hold
        rw [← hold]
      · rw [if_neg ho] at hold
        rw [hold] at ho
        exact absurd hid ho
    · rw [ontrackUpdate_of_not_exists _ _ _ h, List.mem_append] at hitem
      rcases hitem with hi | hi
      · exact absurd ⟨item, hi, hid⟩ h
      · have : item = { id := remoteId, stream := stream } := by simpa using hi
        rw [this]
  · by_cases h : ∃ item ∈ st.remoteStreams, item.id = remoteId
    · rw [ontrackUpdate_of_exists _ _ _ h, List.filter_map]
      have hfil : st.remoteStreams.filter
          ((fun item : RemoteStream => decide (item.id ≠ remoteId)) ∘
            (fun item => if item.id = remoteId then { id := remoteId, stream := stream }
              else item)) =
          st.remoteStreams.filter (fun item => decide (item.id ≠ remoteId)) := by
        apply List.filter_congr
        intro item _
        simp only [Function.comp]
        by_cases ho : item.id = remoteId
        · simp [ho]
        · simp [ho]
      rw [hfil]
      have hid : ∀ item ∈ st.remoteStreams.filter (fun item => decide (item.id ≠ remoteId)),
          (fun item : RemoteStream =>
            if item.id = remoteId then { id := remoteId, stream := stream } else item) item =
            id item := by
        intro item hi
        rw [List.mem_filter] at hi
        have hne : item.id ≠ remoteId := by simpa using hi.2
        simp only [id]
        rw [if_neg hne]
      rw [List.map_congr_left hid, List.map_id]
    · rw [ontrackUpdate_of_not_exists _ _ _ h, List.filter_append]
      simp

theorem ontrack_records_one_stream_witness :
    (ontrack
        { Room.init with
          remoteStreams := [{ id := "b7", stream := { id := "old", tracks := [] } },
            { id := "c1", stream := { id := "s-c1", tracks := [] } }] }
        "b7" [{ id := "new", tracks := [] }]).remoteStreams =
      [{ id := "b7", stream := { id := "new", tracks := [] } },
        { id := "c1", stream := { id := "s-c1", tracks := [] } }] ∧
    UniqueStreams
      (ontrack
        { Room.init with
          remoteStreams := [{ id := "b7", stream := { id := "old", tracks := [] } },
            { id := "c1", stream := { id := "s-c1", tracks := [] } }] }
        "b7" [{ id := "new", tracks := [] }]).remoteStreams := by
  have h := ontrack_records_one_stream
    { Room.init with
      remoteStreams := [{ id := "b7", stream := { id := "old", tracks := [] } },
        { id := "c1", stream := { id := "s-c1", tracks := [] } }] }
    "b7" { id := "new", tracks := [] } []
  refine ⟨?_, h.2.2.2.1 (by unfold UniqueStreams; decide)⟩
  rw [(h.2.1 ⟨{ id := "b7", stream := { id := "old", tracks := [] } }, by simp, rfl⟩).1]
  decide

end Chatter
